import Mathlib

/-!
# Verification of the llama.cpp client response pipeline

A shallow embedding, in Lean 4, of the response decoding and normalization
pipeline of `simple_llamacpp_client.py`: the text repair utilities, the
thinking/answer splitter, the embedded JSON extractor, the SSE streaming
decoder, and the orchestrating `run` method.  Python strings are modelled as
Lean `String` / `List Char`; `bytes` values as `List Nat`; `json.loads`
results as an inductive `Json` type (numbers are kept as their source
lexemes, which is faithful for every property proved here since no claim
compares numerals parsed from different spellings).  Lone-surrogate `\u`
escapes, which CPython's `json` module tolerates, are not representable in
`Char` and are modelled as parse failures; no theorem below depends on such
inputs.  Case-insensitive matching is modelled on ASCII letters.
-/

/-- Python `str.isspace` / `re` `\s` character class (the set used both by
`str.strip()` and by the regex `\s`): ASCII whitespace, the information
separators, and the Unicode space characters. -/
def isPws (c : Char) : Bool :=
  let n := c.toNat
  (9 ≤ n && n ≤ 13) || (28 ≤ n && n ≤ 31) || n = 32 || n = 0x85 || n = 0xA0 ||
    n = 0x1680 || (0x2000 ≤ n && n ≤ 0x200A) || n = 0x2028 || n = 0x2029 ||
    n = 0x202F || n = 0x205F || n = 0x3000

/-- Drop trailing characters satisfying `p` (helper for Python `strip`). -/
def dropTrail (p : Char → Bool) (l : List Char) : List Char :=
  (l.reverse.dropWhile p).reverse

/-- Python `str.strip()` on a character list. -/
def pyStrip (l : List Char) : List Char :=
  dropTrail isPws (l.dropWhile isPws)

/-- Python `str.strip()` on a string. -/
def pyStripS (s : String) : String :=
  ⟨pyStrip s.data⟩

/-- Latin-1 (ISO-8859-1) encoding of a Python string: byte-per-character when
every code point fits in one byte, otherwise a `UnicodeEncodeError`
(modelled as `none`).  Embeds `text.encode("latin1")`. -/
def encodeLatin1 (l : List Char) : Option (List Nat) :=
  if l.all (fun c => c.toNat ≤ 255) then some (l.map (fun c => c.toNat)) else none

/-- Is `b` a UTF-8 continuation byte (`0x80..0xBF`)? -/
def isCont (b : Nat) : Bool := 0x80 ≤ b && b ≤ 0xBF

/-- Strict UTF-8 decoding of a byte list, rejecting truncated sequences,
overlong encodings, surrogates and code points above `0x10FFFF`, exactly as
CPython's `bytes.decode("utf-8")` does.  Embeds `.decode("utf-8")`. -/
def utf8Decode : List Nat → Option (List Char)
  | [] => some []
  | b :: rest =>
    if b ≤ 0x7F then
      (utf8Decode rest).map (fun cs => Char.ofNat b :: cs)
    else if 0xC2 ≤ b && b ≤ 0xDF then
      match rest with
      | b2 :: rest2 =>
        if isCont b2 then
          (utf8Decode rest2).map (fun cs => Char.ofNat ((b - 0xC0) * 64 + (b2 - 0x80)) :: cs)
        else none
      | [] => none
    else if 0xE0 ≤ b && b ≤ 0xEF then
      match rest with
      | b2 :: b3 :: rest3 =>
        let okB2 :=
          if b = 0xE0 then 0xA0 ≤ b2 && b2 ≤ 0xBF
          else if b = 0xED then 0x80 ≤ b2 && b2 ≤ 0x9F
          else isCont b2
        if okB2 && isCont b3 then
          (utf8Decode rest3).map (fun cs =>
            Char.ofNat ((b - 0xE0) * 4096 + (b2 - 0x80) * 64 + (b3 - 0x80)) :: cs)
        else none
      | _ => none
    else if 0xF0 ≤ b && b ≤ 0xF4 then
      match rest with
      | b2 :: b3 :: b4 :: rest4 =>
        let okB2 :=
          if b = 0xF0 then 0x90 ≤ b2 && b2 ≤ 0xBF
          else if b = 0xF4 then 0x80 ≤ b2 && b2 ≤ 0x8F
          else isCont b2
        if okB2 && isCont b3 && isCont b4 then
          (utf8Decode rest4).map (fun cs =>
            Char.ofNat ((b - 0xF0) * 262144 + (b2 - 0x80) * 4096 +
              (b3 - 0x80) * 64 + (b4 - 0x80)) :: cs)
        else none
      | _ => none
    else none

/-- Embeds `_fix_mojibake`: re-encode as Latin-1 and re-decode as UTF-8,
returning the input unchanged on any failure, and `""` on falsy input. -/
def fixMojibake (s : String) : String :=
  if s = "" then ""
  else
    match encodeLatin1 s.data with
    | none => s
    | some bs =>
      match utf8Decode bs with
      | none => s
      | some cs => ⟨cs⟩

/-- Replace every occurrence of character `a` by `b` (Python
`str.replace` with single-character arguments). -/
def replaceChar (a b : Char) (l : List Char) : List Char :=
  l.map (fun c => if c = a then b else c)

/-- Embeds `_replace_smart_quotes`: the four chained single-character
`str.replace` calls, in source order. -/
def replaceSmartQuotes (s : String) : String :=
  if s = "" then ""
  else
    ⟨replaceChar (Char.ofNat 0x201D) (Char.ofNat 0x22)
      (replaceChar (Char.ofNat 0x201C) (Char.ofNat 0x22)
        (replaceChar (Char.ofNat 0x2018) (Char.ofNat 0x27)
          (replaceChar (Char.ofNat 0x2019) (Char.ofNat 0x27) s.data)))⟩

/-- Embeds `_postprocess_text`: dispatch on the (stripped, defaulted)
post-processing mode. -/
def postprocessText (text mode : String) : String :=
  let t := text
  let m := pyStripS (if mode = "" then "fix_mojibake" else mode)
  if m = "none" then t
  else if m = "fix_mojibake" then fixMojibake t
  else if m = "ascii_quotes" then replaceSmartQuotes t
  else if m = "fix_mojibake+ascii_quotes" then replaceSmartQuotes (fixMojibake t)
  else fixMojibake t

/-- The character substitution described by the specification of
`straightenQuotes`: the four curly punctuation code points map to their
straight ASCII equivalents, every other character maps to itself. -/
def smartQuoteFix (c : Char) : Char :=
  if c = Char.ofNat 0x2019 then Char.ofNat 0x27
  else if c = Char.ofNat 0x2018 then Char.ofNat 0x27
  else if c = Char.ofNat 0x201C then Char.ofNat 0x22
  else if c = Char.ofNat 0x201D then Char.ofNat 0x22
  else c

theorem replaceSmartQuotes_data (s : String) :
    (replaceSmartQuotes s).data = s.data.map smartQuoteFix := by
  unfold replaceSmartQuotes
  by_cases h : s = ""
  · subst h; rfl
  · simp only [h, if_false, replaceChar, List.map_map]
    apply List.map_congr_left
    intro c _
    simp only [Function.comp_apply, smartQuoteFix]
    by_cases h1 : c = Char.ofNat 0x2019 <;>
      by_cases h2 : c = Char.ofNat 0x2018 <;>
        by_cases h3 : c = Char.ofNat 0x201C <;>
          by_cases h4 : c = Char.ofNat 0x201D <;>
            simp_all

theorem smartQuoteFix_self {c : Char}
    (h : c ≠ Char.ofNat 0x2019 ∧ c ≠ Char.ofNat 0x2018 ∧
      c ≠ Char.ofNat 0x201C ∧ c ≠ Char.ofNat 0x201D) : smartQuoteFix c = c := by
  simp [smartQuoteFix, h.1, h.2.1, h.2.2.1, h.2.2.2]

/-- **C8.** `_replace_smart_quotes` acts pointwise as the four-code-point
substitution `smartQuoteFix` and leaves every other character unchanged; on a
string containing none of the four curly quotes the output equals the
input. -/
theorem smart_quotes_pointwise :
    (∀ s : String, (replaceSmartQuotes s).data = s.data.map smartQuoteFix) ∧
    (∀ c : Char, c ≠ Char.ofNat 0x2019 → c ≠ Char.ofNat 0x2018 →
      c ≠ Char.ofNat 0x201C → c ≠ Char.ofNat 0x201D → smartQuoteFix c = c) ∧
    (∀ s : String,
      (∀ c ∈ s.data, c ≠ Char.ofNat 0x2019 ∧ c ≠ Char.ofNat 0x2018 ∧
        c ≠ Char.ofNat 0x201C ∧ c ≠ Char.ofNat 0x201D) →
      replaceSmartQuotes s = s) := by
  refine ⟨replaceSmartQuotes_data, ?_, ?_⟩
  · intro c h1 h2 h3 h4; exact smartQuoteFix_self ⟨h1, h2, h3, h4⟩
  · intro s hs
    have hd : (replaceSmartQuotes s).data = s.data := by
      rw [replaceSmartQuotes_data]
      calc s.data.map smartQuoteFix = s.data.map id := by
            apply List.map_congr_left
            intro c hc
            exact smartQuoteFix_self (hs c hc)
        _ = s.data := List.map_id s.data
    exact String.ext hd

theorem smartQuoteFix_idem (c : Char) : smartQuoteFix (smartQuoteFix c) = smartQuoteFix c := by
  unfold smartQuoteFix
  by_cases h1 : c = Char.ofNat 0x2019 <;>
    by_cases h2 : c = Char.ofNat 0x2018 <;>
      by_cases h3 : c = Char.ofNat 0x201C <;>
        by_cases h4 : c = Char.ofNat 0x201D <;>
          simp_all

theorem replaceSmartQuotes_idem (s : String) :
    replaceSmartQuotes (replaceSmartQuotes s) = replaceSmartQuotes s := by
  apply String.ext
  rw [replaceSmartQuotes_data, replaceSmartQuotes_data, List.map_map]
  apply List.map_congr_left
  intro c _
  exact smartQuoteFix_idem c

theorem postprocessText_none (t : String) : postprocessText t "none" = t := rfl

theorem postprocessText_fix (t : String) :
    postprocessText t "fix_mojibake" = fixMojibake t := rfl

theorem postprocessText_ascii (t : String) :
    postprocessText t "ascii_quotes" = replaceSmartQuotes t := rfl

theorem postprocessText_both (t : String) :
    postprocessText t "fix_mojibake+ascii_quotes" = replaceSmartQuotes (fixMojibake t) := rfl

/-- A doubly mojibake-encoded `é`: the four characters `Ã ‚ Â ©` whose
Latin-1 bytes `C3 83 C2 A9` decode, as UTF-8, to `Ã©` — which is itself
again Latin-1-encodable to valid UTF-8. -/
def doubleMoji : String :=
  ⟨[Char.ofNat 0xC3, Char.ofNat 0x83, Char.ofNat 0xC2, Char.ofNat 0xA9]⟩

/-- **C2 counterexample.** With mode `fix_mojibake`, applying
`_postprocess_text` twice to a doubly mojibake-encoded input differs from
applying it once: the repair is not idempotent. -/
theorem postprocess_not_idempotent :
    postprocessText (postprocessText doubleMoji "fix_mojibake") "fix_mojibake" ≠
      postprocessText doubleMoji "fix_mojibake" := by decide

/-- **C2 (amended).** `_postprocess_text` is idempotent for modes `none` and
`ascii_quotes` on every input; for the mojibake-involving modes
`fix_mojibake` and `fix_mojibake+ascii_quotes` it is idempotent exactly on
those inputs whose once-processed output is a fixed point of the mojibake
repair (e.g. any ASCII text), and not in general. -/
theorem postprocess_idem_amended (mode t : String)
    (hm : mode = "none" ∨ mode = "fix_mojibake" ∨ mode = "ascii_quotes" ∨
      mode = "fix_mojibake+ascii_quotes")
    (hfix : mode = "fix_mojibake" ∨ mode = "fix_mojibake+ascii_quotes" →
      fixMojibake (postprocessText t mode) = postprocessText t mode) :
    postprocessText (postprocessText t mode) mode = postprocessText t mode := by
  rcases hm with h | h | h | h <;> subst h
  · rw [postprocessText_none, postprocessText_none]
  · have hf := hfix (Or.inl rfl)
    simp only [postprocessText_fix] at hf ⊢
    exact hf
  · rw [postprocessText_ascii, postprocessText_ascii]
    exact replaceSmartQuotes_idem t
  · have hf := hfix (Or.inr rfl)
    simp only [postprocessText_both] at hf ⊢
    rw [hf]
    exact replaceSmartQuotes_idem (fixMojibake t)

theorem postprocess_idem_amended_witness :
    postprocessText (postprocessText "He said ok." "fix_mojibake") "fix_mojibake" =
      postprocessText "He said ok." "fix_mojibake" :=
  postprocess_idem_amended "fix_mojibake" "He said ok." (Or.inr (Or.inl rfl))
    (fun _ => by decide)

theorem smart_quotes_pointwise_witness :
    (replaceSmartQuotes "a’b").data = "a’b".data.map smartQuoteFix ∧
    smartQuoteFix 'x' = 'x' ∧ replaceSmartQuotes "plain" = "plain" :=
  ⟨smart_quotes_pointwise.1 "a’b",
   smart_quotes_pointwise.2.1 'x' (by decide) (by decide) (by decide) (by decide),
   smart_quotes_pointwise.2.2 "plain" (by decide)⟩

/-!
## JSON values and `json.loads`

`Json` models the result of Python's `json.loads`.  Numbers (including the
non-standard `NaN`/`Infinity`/`-Infinity` accepted by CPython) are kept as
their source lexeme.  Objects keep their key/value pairs in parse order.
-/

inductive Json where
  | null
  | bool (b : Bool)
  | num (lex : String)
  | str (s : String)
  | arr (xs : List Json)
  | obj (kvs : List (String × Json))

/-- JSON whitespace as skipped by CPython's decoder (`[ \t\n\r]`). -/
def isJws (c : Char) : Bool :=
  c = ' ' || c = '\t' || c = '\n' || c = '\r'

/-- Skip leading JSON whitespace. -/
def dropJWs : List Char → List Char := List.dropWhile isJws

/-- Value of a hexadecimal digit. -/
def hexVal (c : Char) : Option Nat :=
  if 48 ≤ c.toNat && c.toNat ≤ 57 then some (c.toNat - 48)
  else if 97 ≤ c.toNat && c.toNat ≤ 102 then some (c.toNat - 87)
  else if 65 ≤ c.toNat && c.toNat ≤ 70 then some (c.toNat - 55)
  else none

/-- Prepend a character to the parsed-content component of a string-body
parse result. -/
def consStr (c : Char) (r : Option (List Char × List Char)) :
    Option (List Char × List Char) :=
  r.map (fun p => (c :: p.1, p.2))

/-- Scanner state inside a JSON string body: after the opening quote
(`plain`), after a backslash (`esc`), inside the four hex digits of a
`\\uXXXX` escape (`ux`), or expecting the `\\uXXXX` low half of a surrogate
pair (`sur1`/`sur2`/`lx`). -/
inductive SState where
  | plain
  | esc
  | ux (acc k : Nat)
  | sur1 (hi : Nat)
  | sur2 (hi : Nat)
  | lx (hi acc k : Nat)

/-- Parse a JSON string body one character at a time (strict mode, as
CPython's `py_scanstring`): raw control characters are rejected, the eight
simple escapes and `\\uXXXX` are decoded, and surrogate pairs are combined.
(Lone surrogates, which CPython keeps, are not representable in `Char` and
are rejected here.)  Returns the decoded characters and the rest after the
closing quote. -/
def strLoop : SState → List Char → Option (List Char × List Char)
  | _, [] => none
  | .plain, c :: rest =>
    if c = '"' then some ([], rest)
    else if c = '\\' then strLoop .esc rest
    else if c.toNat < 0x20 then none
    else consStr c (strLoop .plain rest)
  | .esc, e :: rest =>
    if e = '"' then consStr '"' (strLoop .plain rest)
    else if e = '\\' then consStr '\\' (strLoop .plain rest)
    else if e = '/' then consStr '/' (strLoop .plain rest)
    else if e = 'b' then consStr (Char.ofNat 8) (strLoop .plain rest)
    else if e = 'f' then consStr (Char.ofNat 12) (strLoop .plain rest)
    else if e = 'n' then consStr '\n' (strLoop .plain rest)
    else if e = 'r' then consStr '\r' (strLoop .plain rest)
    else if e = 't' then consStr '\t' (strLoop .plain rest)
    else if e = 'u' then strLoop (.ux 0 0) rest
    else none
  | .ux acc k, h :: rest =>
    match hexVal h with
    | some v =>
      if k = 3 then
        let cp := acc * 16 + v
        if 0xD800 ≤ cp && cp ≤ 0xDBFF then strLoop (.sur1 cp) rest
        else if 0xDC00 ≤ cp && cp ≤ 0xDFFF then none
        else consStr (Char.ofNat cp) (strLoop .plain rest)
      else strLoop (.ux (acc * 16 + v) (k + 1)) rest
    | none => none
  | .sur1 hi, b :: rest => if b = '\\' then strLoop (.sur2 hi) rest else none
  | .sur2 hi, b :: rest => if b = 'u' then strLoop (.lx hi 0 0) rest else none
  | .lx hi acc k, h :: rest =>
    match hexVal h with
    | some v =>
      if k = 3 then
        let lo := acc * 16 + v
        if 0xDC00 ≤ lo && lo ≤ 0xDFFF then
          consStr (Char.ofNat (0x10000 + (hi - 0xD800) * 1024 + (lo - 0xDC00)))
            (strLoop .plain rest)
        else none
      else strLoop (.lx hi (acc * 16 + v) (k + 1)) rest
    | none => none

/-- The JSON string body parser, started in the plain state. -/
def parseStrBody : List Char → Option (List Char × List Char) := strLoop .plain

/-- Optional fraction part `(\.\d+)?` of the CPython number regex: consumed
only when the dot is followed by at least one digit. -/
def numFrac : List Char → List Char × List Char
  | '.' :: r =>
    let ds := r.takeWhile Char.isDigit
    if ds.isEmpty then ([], '.' :: r) else ('.' :: ds, r.dropWhile Char.isDigit)
  | l => ([], l)

/-- Optional exponent part `([eE][-+]?\d+)?` of the CPython number regex. -/
def numExp : List Char → List Char × List Char
  | [] => ([], [])
  | e :: r =>
    if e = 'e' || e = 'E' then
      match r with
      | s :: r2 =>
        if s = '+' || s = '-' then
          let ds := r2.takeWhile Char.isDigit
          if ds.isEmpty then ([], e :: s :: r2)
          else (e :: s :: ds, r2.dropWhile Char.isDigit)
        else
          let ds := r.takeWhile Char.isDigit
          if ds.isEmpty then ([], e :: r) else (e :: ds, r.dropWhile Char.isDigit)
      | [] => ([], [e])
    else ([], e :: r)

/-- Append the optional fraction and exponent parts to a parsed integer
part. -/
def numTail (intPart l : List Char) : List Char × List Char :=
  let p := numFrac l
  let q := numExp p.2
  (intPart ++ p.1 ++ q.1, q.2)

/-- Unsigned number per the CPython regex `(0|[1-9]\d*)(\.\d+)?([eE][-+]?\d+)?`:
a leading `0` is never followed by further integer-part digits. -/
def parseUNum : List Char → Option (List Char × List Char)
  | [] => none
  | c :: r =>
    if c = '0' then some (numTail ['0'] r)
    else if c.isDigit then
      some (numTail (c :: r.takeWhile Char.isDigit) (r.dropWhile Char.isDigit))
    else none

/-- Signed JSON number lexeme. -/
def parseNumber : List Char → Option (List Char × List Char)
  | [] => none
  | c :: r =>
    if c = '-' then (parseUNum r).map (fun p => ('-' :: p.1, p.2))
    else parseUNum (c :: r)

/-- Match a literal character sequence, returning the rest. -/
def litP : List Char → List Char → Option (List Char)
  | [], l => some l
  | _ :: _, [] => none
  | p :: ps, c :: l => if c = p then litP ps l else none

mutual

/-- One JSON value (CPython `scan_once`): skips leading JSON whitespace,
dispatches on the first character, and returns the value together with the
unconsumed rest, which begins immediately after the value's last
character. -/
def pV : Nat → List Char → Option (Json × List Char)
  | 0, _ => none
  | Nat.succ f, l =>
    match dropJWs l with
    | [] => none
    | c :: r =>
      if c = '{' then (pMStart f r).map (fun p => (Json.obj p.1, p.2))
      else if c = '[' then (pEStart f r).map (fun p => (Json.arr p.1, p.2))
      else if c = '"' then (parseStrBody r).map (fun p => (Json.str ⟨p.1⟩, p.2))
      else if c = 't' then (litP ['r', 'u', 'e'] r).map (fun rest => (Json.bool true, rest))
      else if c = 'f' then (litP ['a', 'l', 's', 'e'] r).map (fun rest => (Json.bool false, rest))
      else if c = 'n' then (litP ['u', 'l', 'l'] r).map (fun rest => (Json.null, rest))
      else if c = 'N' then (litP ['a', 'N'] r).map (fun rest => (Json.num "NaN", rest))
      else if c = 'I' then
        (litP ['n', 'f', 'i', 'n', 'i', 't', 'y'] r).map (fun rest => (Json.num "Infinity", rest))
      else if c.isDigit || c = '-' then
        match parseNumber (c :: r) with
        | some p => some (Json.num ⟨p.1⟩, p.2)
        | none =>
          if c = '-' then
            (litP ['I', 'n', 'f', 'i', 'n', 'i', 't', 'y'] r).map
              (fun rest => (Json.num "-Infinity", rest))
          else none
      else none

/-- Array contents directly after `[`: empty array or first element then
separators. -/
def pEStart : Nat → List Char → Option (List Json × List Char)
  | 0, _ => none
  | Nat.succ f, l =>
    match dropJWs l with
    | [] => none
    | c :: r =>
      if c = ']' then some ([], r)
      else
        match pV f (c :: r) with
        | none => none
        | some (v, r0) => (pERest f r0).map (fun p => (v :: p.1, p.2))

/-- Array continuation after an element: `,` and a further element, or the
closing `]`. -/
def pERest : Nat → List Char → Option (List Json × List Char)
  | 0, _ => none
  | Nat.succ f, l =>
    match dropJWs l with
    | [] => none
    | c :: r =>
      if c = ']' then some ([], r)
      else if c = ',' then
        match pV f r with
        | none => none
        | some (v, r2) => (pERest f r2).map (fun p => (v :: p.1, p.2))
      else none

/-- One `"key": value` member of an object. -/
def pMem : Nat → List Char → Option ((String × Json) × List Char)
  | 0, _ => none
  | Nat.succ f, l =>
    match dropJWs l with
    | [] => none
    | c :: r =>
      if c = '"' then
        match parseStrBody r with
        | none => none
        | some (k, r2) =>
          match dropJWs r2 with
          | [] => none
          | c2 :: r3 =>
            if c2 = ':' then
              match pV f r3 with
              | none => none
              | some (v, r4) => some ((⟨k⟩, v), r4)
            else none
      else none

/-- Object contents directly after `{`. -/
def pMStart : Nat → List Char → Option (List (String × Json) × List Char)
  | 0, _ => none
  | Nat.succ f, l =>
    match dropJWs l with
    | [] =>
      match pMem f l with
      | none => none
      | some (kv, r) => (pMRest f r).map (fun p => (kv :: p.1, p.2))
    | c :: r =>
      if c = '}' then some ([], r)
      else
        match pMem f l with
        | none => none
        | some (kv, r0) => (pMRest f r0).map (fun p => (kv :: p.1, p.2))

/-- Object continuation after a member: `,` and a further member, or the
closing `}`. -/
def pMRest : Nat → List Char → Option (List (String × Json) × List Char)
  | 0, _ => none
  | Nat.succ f, l =>
    match dropJWs l with
    | [] => none
    | c :: r =>
      if c = '}' then some ([], r)
      else if c = ',' then
        match pMem f r with
        | none => none
        | some (kv, r2) => (pMRest f r2).map (fun p => (kv :: p.1, p.2))
      else none

end

/-- Fuel amply sufficient for `pV` on `l` (at most two recursive steps ever
separate two consumed characters). -/
def jsonFuel (l : List Char) : Nat := 2 * l.length + 2

/-- Embeds `json.loads`: parse one value, then require only JSON whitespace
to remain (`Extra data` otherwise); any failure is `none`. -/
def loads (s : String) : Option Json :=
  match pV (jsonFuel s.data) s.data with
  | some (v, r) => if (dropJWs r).isEmpty then some v else none
  | none => none

/-- Embeds `_safe_json_loads` (the `try: json.loads` wrapper): identical to
`loads` in this embedding, since failures are already values. -/
def safeJsonLoads : String → Option Json := loads

example : loads "  \x7b\"a\": [1, true, null, \"x\\n\"]\x7d  " =
    some (Json.obj [("a", Json.arr [Json.num "1", Json.bool true, Json.null,
      Json.str "x\n"])]) := by rfl

example : loads "012" = none := by rfl
example : loads "[1,]" = none := by rfl
example : loads "-Infinity" = some (Json.num "-Infinity") := by rfl
example : loads "1.5e-3" = some (Json.num "1.5e-3") := by rfl
example : loads "1." = none := by rfl
example : loads "\"a\\u00e9b\"" = some (Json.str "aéb") := by rfl
example : loads "" = none := by rfl

/-!
## Answer/Thinking splitter
-/

/-- ASCII lower-casing, the case folding used here to model `re.IGNORECASE`
on the ASCII tag and label patterns. -/
def lowerC (c : Char) : Char :=
  if 'A' ≤ c && c ≤ 'Z' then Char.ofNat (c.toNat + 32) else c

/-- Case-insensitive (ASCII) match of a literal pattern, returning the
rest. -/
def ciMatch : List Char → List Char → Option (List Char)
  | [], l => some l
  | _ :: _, [] => none
  | p :: ps, c :: l => if lowerC c = lowerC p then ciMatch ps l else none

/-- The opening marker of `_THINK_TAG_RE`. -/
def openTag : List Char := "<think>".data

/-- The closing marker of `_THINK_TAG_RE`. -/
def closeTag : List Char := "</think>".data

/-- Split at the first (nearest, i.e. non-greedy) closing marker: returns
the characters before it and the rest after it. -/
def findClose : List Char → Option (List Char × List Char)
  | [] => none
  | c :: l =>
    match ciMatch closeTag (c :: l) with
    | some rest => some ([], rest)
    | none => (findClose l).map (fun p => (c :: p.1, p.2))

/-- First match of `_THINK_TAG_RE` (`<think>(.*?)</think>`, DOTALL,
IGNORECASE) in `re.search` order: the earliest start position carrying an
opening marker with some closing marker after it; returns
`(before, group 1, after)`. -/
def findThink : List Char → Option (List Char × List Char × List Char)
  | [] => none
  | c :: l =>
    match ciMatch openTag (c :: l) with
    | some afterOpen =>
      match findClose afterOpen with
      | some (grp, post) => some ([], grp, post)
      | none => (findThink l).map (fun p => (c :: p.1, p.2.1, p.2.2))
    | none => (findThink l).map (fun p => (c :: p.1, p.2.1, p.2.2))

/-- `_THINK_TAG_RE.sub("", ·)` with explicit fuel: remove successive
non-overlapping matches, resuming after each match. -/
def subThink : Nat → List Char → List Char
  | 0, l => l
  | Nat.succ f, l =>
    match findThink l with
    | none => l
    | some (pre, _, post) => pre ++ subThink f post

/-- `_THINK_TAG_RE.sub("", l)`: each match spans at least the two markers,
so `l.length + 1` rounds of `subThink` always suffice. -/
def subThinkAll (l : List Char) : List Char := subThink (l.length + 1) l

/-- The leading-label pattern `^\s*(final|answer)\s*:\s*` of `_clean_answer`:
returns the rest after a successful match. -/
def matchLabel (l : List Char) : Option (List Char) :=
  let l1 := l.dropWhile isPws
  let afterWord : List Char → Option (List Char) := fun r =>
    match r.dropWhile isPws with
    | [] => none
    | c :: r2 => if c = ':' then some (r2.dropWhile isPws) else none
  match ciMatch "final".data l1 with
  | some r => afterWord r
  | none =>
    match ciMatch "answer".data l1 with
    | some r => afterWord r
    | none => none

/-- Embeds `_clean_answer` on textual input: strip, drop one leading
`final:`/`answer:` label, strip a surrounding backtick fence, strip
again. -/
def cleanAnswerL (l : List Char) : List Char :=
  let t := pyStrip l
  let t1 := match matchLabel t with
    | some r => r
    | none => t
  let t2 :=
    if "```".data.isPrefixOf t1 && "```".data.isSuffixOf t1 then
      pyStrip (dropTrail (fun c => c = '`') (t1.dropWhile (fun c => c = '`')))
    else t1
  pyStrip t2

/-- `_clean_answer` on a string. -/
def cleanAnswer (s : String) : String := ⟨cleanAnswerL s.data⟩

/-- Embeds `_split_thinking_and_answer_from_content`: extract the first
inline `<think>` block if present, remove all such blocks from the answer,
and de-scaffold. -/
def splitFromContent (content : String) : String × String :=
  if content = "" then ("", "")
  else
    match findThink content.data with
    | some (_, grp, _) =>
      (⟨pyStrip grp⟩, cleanAnswer ⟨pyStrip (subThinkAll content.data)⟩)
    | none => ("", cleanAnswer content)

/-!
## Python value helpers (dict lookup, truthiness, `str()`)
-/

/-- Python `dict.get` with default `None` on a parsed JSON object (duplicate
keys: the last occurrence wins, as in `json.loads`). -/
def pyGet (kvs : List (String × Json)) (k : String) : Json :=
  match kvs.reverse.find? (fun p => p.1 == k) with
  | some p => p.2
  | none => Json.null

/-- Is a JSON number lexeme numerically zero?  (All mantissa digits are
`0`; `NaN`/`Infinity` contain non-digit letters and are never zero.) -/
def numIsZero (lex : List Char) : Bool :=
  (lex.takeWhile (fun c => !(c = 'e' || c = 'E'))).all
    (fun c => c = '0' || c = '-' || c = '+' || c = '.')

/-- Python truthiness of a parsed JSON value. -/
def jsonTruthy : Json → Bool
  | .null => false
  | .bool b => b
  | .num lex => !numIsZero lex.data
  | .str s => !(s == "")
  | .arr xs => !xs.isEmpty
  | .obj kvs => !kvs.isEmpty

/-- Python `a or b` on parsed JSON values. -/
def pyOr (a b : Json) : Json := if jsonTruthy a then a else b

mutual

/-- Python `repr()` of a parsed JSON value, for the `str(content)` coercion
branch (strings are modelled without escape processing in their quoted
form; numbers print as their lexeme — branches no claim depends on). -/
def pyRepr : Json → String
  | .null => "None"
  | .bool true => "True"
  | .bool false => "False"
  | .num lex => lex
  | .str s => "'" ++ s ++ "'"
  | .arr xs => "[" ++ pyReprList xs ++ "]"
  | .obj kvs => "\x7b" ++ pyReprPairs kvs ++ "\x7d"

def pyReprList : List Json → String
  | [] => ""
  | [x] => pyRepr x
  | x :: y :: xs => pyRepr x ++ ", " ++ pyReprList (y :: xs)

def pyReprPairs : List (String × Json) → String
  | [] => ""
  | [(k, v)] => "'" ++ k ++ "': " ++ pyRepr v
  | (k, v) :: y :: xs => "'" ++ k ++ "': " ++ pyRepr v ++ ", " ++ pyReprPairs (y :: xs)

end

/-- Python `str()` of a parsed JSON value. -/
def pyStr : Json → String
  | .str s => s
  | j => pyRepr j

/-- `_clean_answer` applied to an arbitrary Python value (its internal
falsy check and `str()` coercion made explicit). -/
def cleanAnswerVal (j : Json) : String :=
  if jsonTruthy j then cleanAnswer (pyStr j) else ""

/-- Embeds `_split_thinking_and_answer`: a non-blank string in the
`reasoning`/`thoughts` field wins; otherwise textual content is split on
inline markers; non-textual content is coerced. -/
def splitThinkingAndAnswer (msgObj : Json) : String × String :=
  let reasoning : Json :=
    match msgObj with
    | .obj kvs => pyOr (pyOr (pyGet kvs "reasoning") (pyGet kvs "thoughts")) (Json.str "")
    | _ => Json.str ""
  let content : Json :=
    match msgObj with
    | .obj kvs => pyOr (pyGet kvs "content") (Json.str "")
    | _ => Json.str ""
  match reasoning with
  | .str rs =>
    if pyStrip rs.data ≠ [] then (⟨pyStrip rs.data⟩, cleanAnswerVal content)
    else
      match content with
      | .str cs => splitFromContent cs
      | _ => ("", cleanAnswer (pyStr content))
  | _ =>
    match content with
    | .str cs => splitFromContent cs
    | _ => ("", cleanAnswer (pyStr content))

example : splitFromContent "<think>plan</think>result" = ("plan", "result") := by rfl
example : splitFromContent "answer:  hi" = ("", "hi") := by rfl
example : splitFromContent "no markers" = ("", "no markers") := by rfl
example : cleanAnswer "```json\nx\n```" = "json\nx" := by rfl
example : splitThinkingAndAnswer (Json.obj [("reasoning", Json.str " r "),
    ("content", Json.str "<think>a</think>b")]) = ("r", "<think>a</think>b") := by rfl

/-!
## Streaming decoder
-/

/-- Stream metadata (`meta = {"done": ..., "chunks": ...}`). -/
structure StreamMeta where
  done : Bool
  chunks : Nat
deriving DecidableEq

/-- The accumulator of `_parse_stream_and_accumulate`: ordered fragment
lists, the done flag and the decoded-event count. -/
structure SAcc where
  contentParts : List String
  reasoningParts : List String
  done : Bool
  chunks : Nat

/-- `data_str` computed from one (already `strip`ped, non-blank) line:
strip a leading `data:` prefix, then strip. -/
def lineData (line : String) : List Char :=
  let pline := pyStrip line.data
  if "data:".data.isPrefixOf pline then pyStrip (pline.drop 5) else pyStrip pline

/-- The fragment contributed by one field value: the guarded append
`if isinstance(x, str) and x: parts.append(x)` appends exactly this list. -/
def fragOf (j : Json) : List String :=
  match j with
  | .str s => if s = "" then [] else [s]
  | _ => []

/-- Append content fragments. -/
def addContent (a : SAcc) (f : List String) : SAcc :=
  { a with contentParts := a.contentParts ++ f }

/-- Append reasoning fragments. -/
def addReason (a : SAcc) (f : List String) : SAcc :=
  { a with reasoningParts := a.reasoningParts ++ f }

/-- Process one successfully decoded mapping event: count it, then append
the non-empty string content/reasoning fragments of the first choice's
`delta` and then of its `message`, in source order. -/
def accEvent (a : SAcc) (kvs : List (String × Json)) : SAcc :=
  let a1 := { a with chunks := a.chunks + 1 }
  match pyGet kvs "choices" with
  | .arr (c0 :: _) =>
    let c0obj : List (String × Json) :=
      match c0 with
      | .obj kv => kv
      | _ => []
    let a2 :=
      match pyGet c0obj "delta" with
      | .obj dkv =>
        addReason (addContent a1 (fragOf (pyGet dkv "content")))
          (fragOf (pyOr (pyGet dkv "reasoning") (pyGet dkv "thoughts")))
      | _ => a1
    match pyGet c0obj "message" with
    | .obj mkv =>
      addReason (addContent a2 (fragOf (pyGet mkv "content")))
        (fragOf (pyOr (pyGet mkv "reasoning") (pyGet mkv "thoughts")))
    | _ => a2
  | _ => a1

/-- The event loop of `_parse_stream_and_accumulate` over the raw line
sequence: blank lines are skipped (`_iter_sse_lines`), the `[DONE]` sentinel
sets the done flag and stops consumption, unparsable or non-mapping lines
are skipped silently. -/
def accLoop : List String → SAcc → SAcc
  | [], a => a
  | line :: rest, a =>
    let pline := pyStrip line.data
    if pline.isEmpty then accLoop rest a
    else if lineData line = "[DONE]".data then { a with done := true }
    else
      match safeJsonLoads ⟨lineData line⟩ with
      | some (Json.obj kvs) => accLoop rest (accEvent a kvs)
      | _ => accLoop rest a

/-- The initial accumulator. -/
def accInit : SAcc := ⟨[], [], false, 0⟩

/-- Embeds `_parse_stream_and_accumulate` (over the decoded line sequence of
the response): run the loop, join and strip both accumulators, and recover
inline-marker reasoning from the content only when none arrived on the
dedicated channel and the inline extraction is non-empty. -/
def parseStreamAndAccumulate (lines : List String) : String × String × StreamMeta :=
  let a := accLoop lines accInit
  let fullContent := pyStrip (String.join a.contentParts).data
  let fullReasoning := pyStrip (String.join a.reasoningParts).data
  let res : List Char × List Char :=
    if fullReasoning.isEmpty && !fullContent.isEmpty then
      let p := splitFromContent ⟨fullContent⟩
      if p.1 ≠ "" then (p.2.data, p.1.data) else (fullContent, fullReasoning)
    else (fullContent, fullReasoning)
  (⟨res.1⟩, ⟨res.2⟩, { done := a.done, chunks := a.chunks })

example : parseStreamAndAccumulate
    ["data: \x7b\"choices\":[\x7b\"delta\":\x7b\"content\":\"Hel\"\x7d\x7d]\x7d",
     "data: \x7b\"choices\":[\x7b\"delta\":\x7b\"content\":\"lo\"\x7d\x7d]\x7d",
     "data: [DONE]"] = ("Hello", "", ⟨true, 2⟩) := by rfl

example : parseStreamAndAccumulate
    ["data: \x7b\"choices\":[\x7b\"delta\":\x7b\"content\":\"<think>plan</think>result\"\x7d\x7d]\x7d",
     "data: [DONE]"] = ("result", "plan", ⟨true, 1⟩) := by rfl

example : parseStreamAndAccumulate
    ["not json at all",
     "data: \x7b\"choices\":[\x7b\"delta\":\x7b\"content\":\"ok\"\x7d\x7d]\x7d"] = ("ok", "", ⟨false, 1⟩) := by rfl

/-!
## Streaming decoder: properties (claims C1, C5, C6)
-/

/-- The content fragments, in order, that one decoded mapping event appends
(first choice's `delta` content, then its `message` content). -/
def eventContentFrags (kvs : List (String × Json)) : List String :=
  match pyGet kvs "choices" with
  | .arr (c0 :: _) =>
    let c0obj : List (String × Json) :=
      match c0 with
      | .obj kv => kv
      | _ => []
    (match pyGet c0obj "delta" with
      | .obj dkv => fragOf (pyGet dkv "content")
      | _ => []) ++
    (match pyGet c0obj "message" with
      | .obj mkv => fragOf (pyGet mkv "content")
      | _ => [])
  | _ => []

/-- The content fragments one raw line contributes: none for blank,
unparsable or non-mapping lines. -/
def lineContentFrags (line : String) : List String :=
  if (pyStrip line.data).isEmpty then []
  else
    match safeJsonLoads ⟨lineData line⟩ with
    | some (Json.obj kvs) => eventContentFrags kvs
    | _ => []

/-- A line the decoder silently drops: non-blank, not the sentinel, and not
parsing to a mapping. -/
def isJunkLine (line : String) : Bool :=
  if (pyStrip line.data).isEmpty then false
  else if lineData line = "[DONE]".data then false
  else
    match safeJsonLoads ⟨lineData line⟩ with
    | some (Json.obj _) => false
    | _ => true

/-- A line that counts as a successfully decoded mapping event. -/
def isEventLine (line : String) : Bool :=
  if (pyStrip line.data).isEmpty then false
  else
    match safeJsonLoads ⟨lineData line⟩ with
    | some (Json.obj _) => true
    | _ => false

theorem addContent_contentParts (a : SAcc) (f : List String) :
    (addContent a f).contentParts = a.contentParts ++ f := rfl

theorem addReason_contentParts (a : SAcc) (f : List String) :
    (addReason a f).contentParts = a.contentParts := rfl

theorem accEvent_contentParts (a : SAcc) (kvs : List (String × Json)) :
    (accEvent a kvs).contentParts = a.contentParts ++ eventContentFrags kvs := by
  unfold accEvent eventContentFrags
  generalize pyGet kvs "choices" = ch
  rcases ch with _ | b | lx | sx | xs | kv
  case arr =>
    rcases xs with _ | ⟨c0, xs'⟩
    · simp
    · dsimp only
      generalize pyGet (match c0 with | Json.obj kv => kv | _ => []) "delta" = dj
      generalize pyGet (match c0 with | Json.obj kv => kv | _ => []) "message" = mj
      rcases dj with _ | _ | _ | _ | _ | dkv <;>
        rcases mj with _ | _ | _ | _ | _ | mkv <;>
          simp [addReason, addContent]
  all_goals simp

theorem accEvent_chunks (a : SAcc) (kvs : List (String × Json)) :
    (accEvent a kvs).chunks = a.chunks + 1 := by
  unfold accEvent
  generalize pyGet kvs "choices" = ch
  rcases ch with _ | b | lx | sx | xs | kv
  case arr =>
    rcases xs with _ | ⟨c0, xs'⟩
    · simp
    · dsimp only
      generalize pyGet (match c0 with | Json.obj kv => kv | _ => []) "delta" = dj
      generalize pyGet (match c0 with | Json.obj kv => kv | _ => []) "message" = mj
      rcases dj with _ | _ | _ | _ | _ | dkv <;>
        rcases mj with _ | _ | _ | _ | _ | mkv <;>
          simp [addReason, addContent]
  all_goals simp

/-- A line whose `data_str` is the sentinel is necessarily non-blank. -/
theorem lineData_done_nonblank {s : String} (hs : lineData s = "[DONE]".data) :
    (pyStrip s.data).isEmpty = false := by
  by_contra h
  have he : pyStrip s.data = [] := by
    rcases hp : pyStrip s.data with _ | _
    · rfl
    · rw [hp] at h; simp at h
  rw [lineData, he] at hs
  simp [pyStrip, dropTrail] at hs

theorem accLoop_stop (pre : List String) (s : String) (post : List String) (a : SAcc)
    (hpre : ∀ l ∈ pre, lineData l ≠ "[DONE]".data)
    (hs : lineData s = "[DONE]".data) :
    accLoop (pre ++ s :: post) a = accLoop (pre ++ [s]) a := by
  induction pre generalizing a with
  | nil =>
    simp only [List.nil_append, accLoop, lineData_done_nonblank hs, hs, if_true,
      Bool.false_eq_true, if_false]
  | cons l pre' ih =>
    have hl : lineData l ≠ "[DONE]".data := hpre l (List.mem_cons_self l pre')
    have hpre' : ∀ x ∈ pre', lineData x ≠ "[DONE]".data :=
      fun x hx => hpre x (List.mem_cons_of_mem l hx)
    simp only [List.cons_append, accLoop, hl, if_false]
    by_cases hb : (pyStrip l.data).isEmpty
    · simp only [hb, if_true]; exact ih _ hpre'
    · simp only [hb, if_false]
      rcases safeJsonLoads ⟨lineData l⟩ with _ | j
      · exact ih _ hpre'
      · rcases j <;> exact ih _ hpre'

theorem accLoop_contentParts (lines : List String) (a : SAcc) :
    (accLoop lines a).contentParts =
      a.contentParts ++
        (lines.takeWhile (fun l => !(lineData l == "[DONE]".data))).flatMap lineContentFrags := by
  induction lines generalizing a with
  | nil => simp [accLoop]
  | cons line rest ih =>
    by_cases hd : lineData line = "[DONE]".data
    · have hb := lineData_done_nonblank hd
      have h1 : accLoop (line :: rest) a = { a with done := true } := by
        simp only [accLoop, hb, Bool.false_eq_true, if_false, hd, if_true]
      have h2 : (line :: rest).takeWhile (fun l => !(lineData l == "[DONE]".data)) = [] := by
        simp [List.takeWhile_cons, hd]
      rw [h1, h2]
      simp
    · have h2 : (line :: rest).takeWhile (fun l => !(lineData l == "[DONE]".data)) =
          line :: rest.takeWhile (fun l => !(lineData l == "[DONE]".data)) := by
        simp [List.takeWhile_cons, hd]
      rw [h2, List.flatMap_cons]
      by_cases hb : (pyStrip line.data).isEmpty
      · have h1 : accLoop (line :: rest) a = accLoop rest a := by
          simp only [accLoop, hb, if_true]
        have h3 : lineContentFrags line = [] := by simp [lineContentFrags, hb]
        rw [h1, ih, h3, List.nil_append]
      · cases hj : safeJsonLoads ⟨lineData line⟩ with
        | none =>
          have h1 : accLoop (line :: rest) a = accLoop rest a := by
            simp only [accLoop, hb, Bool.false_eq_true, if_false, hd, if_false, hj]
          have h3 : lineContentFrags line = [] := by
            simp [lineContentFrags, hb, hj]
          rw [h1, ih, h3, List.nil_append]
        | some j =>
          rcases j with _ | b | lx | sx | xs | kvs
          · have h1 : accLoop (line :: rest) a = accLoop rest a := by
              simp only [accLoop, hb, Bool.false_eq_true, if_false, hd, if_false, hj]
            have h3 : lineContentFrags line = [] := by
              simp [lineContentFrags, hb, hj]
            rw [h1, ih, h3, List.nil_append]
          · have h1 : accLoop (line :: rest) a = accLoop rest a := by
              simp only [accLoop, hb, Bool.false_eq_true, if_false, hd, if_false, hj]
            have h3 : lineContentFrags line = [] := by
              simp [lineContentFrags, hb, hj]
            rw [h1, ih, h3, List.nil_append]
          · have h1 : accLoop (line :: rest) a = accLoop rest a := by
              simp only [accLoop, hb, Bool.false_eq_true, if_false, hd, if_false, hj]
            have h3 : lineContentFrags line = [] := by
              simp [lineContentFrags, hb, hj]
            rw [h1, ih, h3, List.nil_append]
          · have h1 : accLoop (line :: rest) a = accLoop rest a := by
              simp only [accLoop, hb, Bool.false_eq_true, if_false, hd, if_false, hj]
            have h3 : lineContentFrags line = [] := by
              simp [lineContentFrags, hb, hj]
            rw [h1, ih, h3, List.nil_append]
          · have h1 : accLoop (line :: rest) a = accLoop rest a := by
              simp only [accLoop, hb, Bool.false_eq_true, if_false, hd, if_false, hj]
            have h3 : lineContentFrags line = [] := by
              simp [lineContentFrags, hb, hj]
            rw [h1, ih, h3, List.nil_append]
          · have h1 : accLoop (line :: rest) a = accLoop rest (accEvent a kvs) := by
              simp only [accLoop, hb, Bool.false_eq_true, if_false, hd, if_false, hj]
            have h3 : lineContentFrags line = eventContentFrags kvs := by
              simp [lineContentFrags, hb, hj]
            rw [h1, ih, accEvent_contentParts, h3, List.append_assoc]

theorem accLoop_chunks (lines : List String) (a : SAcc) :
    (accLoop lines a).chunks =
      a.chunks +
        ((lines.takeWhile (fun l => !(lineData l == "[DONE]".data))).filter isEventLine).length := by
  induction lines generalizing a with
  | nil => simp [accLoop]
  | cons line rest ih =>
    by_cases hd : lineData line = "[DONE]".data
    · have hb := lineData_done_nonblank hd
      have h1 : accLoop (line :: rest) a = { a with done := true } := by
        simp only [accLoop, hb, Bool.false_eq_true, if_false, hd, if_true]
      have h2 : (line :: rest).takeWhile (fun l => !(lineData l == "[DONE]".data)) = [] := by
        simp [List.takeWhile_cons, hd]
      rw [h1, h2]
      simp
    · have h2 : (line :: rest).takeWhile (fun l => !(lineData l == "[DONE]".data)) =
          line :: rest.takeWhile (fun l => !(lineData l == "[DONE]".data)) := by
        simp [List.takeWhile_cons, hd]
      rw [h2, List.filter_cons]
      by_cases hb : (pyStrip line.data).isEmpty
      · have h1 : accLoop (line :: rest) a = accLoop rest a := by
          simp only [accLoop, hb, if_true]
        have h3 : isEventLine line = false := by simp [isEventLine, hb]
        rw [h1, ih, h3]
        simp
      · cases hj : safeJsonLoads ⟨lineData line⟩ with
        | none =>
          have h1 : accLoop (line :: rest) a = accLoop rest a := by
            simp only [accLoop, hb, Bool.false_eq_true, if_false, hd, if_false, hj]
          have h3 : isEventLine line = false := by simp [isEventLine, hb, hj]
          rw [h1, ih, h3]
          simp
        | some j =>
          rcases j with _ | b | lx | sx | xs | kvs
          · have h1 : accLoop (line :: rest) a = accLoop rest a := by
              simp only [accLoop, hb, Bool.false_eq_true, if_false, hd, if_false, hj]
            have h3 : isEventLine line = false := by simp [isEventLine, hb, hj]
            rw [h1, ih, h3]
            simp
          · have h1 : accLoop (line :: rest) a = accLoop rest a := by
              simp only [accLoop, hb, Bool.false_eq_true, if_false, hd, if_false, hj]
            have h3 : isEventLine line = false := by simp [isEventLine, hb, hj]
            rw [h1, ih, h3]
            simp
          · have h1 : accLoop (line :: rest) a = accLoop rest a := by
              simp only [accLoop, hb, Bool.false_eq_true, if_false, hd, if_false, hj]
            have h3 : isEventLine line = false := by simp [isEventLine, hb, hj]
            rw [h1, ih, h3]
            simp
          · have h1 : accLoop (line :: rest) a = accLoop rest a := by
              simp only [accLoop, hb, Bool.false_eq_true, if_false, hd, if_false, hj]
            have h3 : isEventLine line = false := by simp [isEventLine, hb, hj]
            rw [h1, ih, h3]
            simp
          · have h1 : accLoop (line :: rest) a = accLoop rest a := by
              simp only [accLoop, hb, Bool.false_eq_true, if_false, hd, if_false, hj]
            have h3 : isEventLine line = false := by simp [isEventLine, hb, hj]
            rw [h1, ih, h3]
            simp
          · have h1 : accLoop (line :: rest) a = accLoop rest (accEvent a kvs) := by
              simp only [accLoop, hb, Bool.false_eq_true, if_false, hd, if_false, hj]
            have h3 : isEventLine line = true := by simp [isEventLine, hb, hj]
            rw [h1, ih, accEvent_chunks, h3]
            simp only [if_true, List.length_cons]
            omega

theorem accLoop_junk_filter (lines : List String) (a : SAcc) :
    accLoop lines a = accLoop (lines.filter (fun l => !isJunkLine l)) a := by
  induction lines generalizing a with
  | nil => rfl
  | cons line rest ih =>
    by_cases hj : isJunkLine line = true
    · have hfil : (line :: rest).filter (fun l => !isJunkLine l) =
          rest.filter (fun l => !isJunkLine l) := by
        simp [List.filter_cons, hj]
      rw [hfil]
      have hb : (pyStrip line.data).isEmpty = false := by
        by_contra h
        simp only [Bool.not_eq_false] at h
        simp [isJunkLine, h] at hj
      have hd : lineData line ≠ "[DONE]".data := by
        intro h
        simp [isJunkLine, hb, h] at hj
      have hstep : accLoop (line :: rest) a = accLoop rest a := by
        simp only [accLoop, hb, Bool.false_eq_true, if_false, hd, if_false]
        cases hp : safeJsonLoads ⟨lineData line⟩ with
        | none => rfl
        | some j =>
          rcases j with _ | b | lx | sx | xs | kvs
          · rfl
          · rfl
          · rfl
          · rfl
          · rfl
          · simp [isJunkLine, hb, hd, hp] at hj
      rw [hstep, ih]
    · have hnj : isJunkLine line = false := by
        rcases hq : isJunkLine line
        · rfl
        · exact absurd hq hj
      have hfil : (line :: rest).filter (fun l => !isJunkLine l) =
          line :: rest.filter (fun l => !isJunkLine l) := by
        simp [List.filter_cons, hnj]
      rw [hfil]
      by_cases hb : (pyStrip line.data).isEmpty
      · have h1 : accLoop (line :: rest) a = accLoop rest a := by
          simp only [accLoop, hb, if_true]
        have h2 : accLoop (line :: rest.filter (fun l => !isJunkLine l)) a =
            accLoop (rest.filter (fun l => !isJunkLine l)) a := by
          simp only [accLoop, hb, if_true]
        rw [h1, h2, ih]
      · by_cases hd : lineData line = "[DONE]".data
        · have h1 : accLoop (line :: rest) a = { a with done := true } := by
            simp only [accLoop, hb, Bool.false_eq_true, if_false, hd, if_true]
          have h2 : accLoop (line :: rest.filter (fun l => !isJunkLine l)) a =
              { a with done := true } := by
            simp only [accLoop, hb, Bool.false_eq_true, if_false, hd, if_true]
          rw [h1, h2]
        · cases hp : safeJsonLoads ⟨lineData line⟩ with
          | none => simp [isJunkLine, hb, hd, hp] at hnj
          | some j =>
            rcases j with _ | b | lx | sx | xs | kvs
            · simp [isJunkLine, hb, hd, hp] at hnj
            · simp [isJunkLine, hb, hd, hp] at hnj
            · simp [isJunkLine, hb, hd, hp] at hnj
            · simp [isJunkLine, hb, hd, hp] at hnj
            · simp [isJunkLine, hb, hd, hp] at hnj
            · have h1 : accLoop (line :: rest) a = accLoop rest (accEvent a kvs) := by
                simp only [accLoop, hb, Bool.false_eq_true, if_false, hd, if_false, hp]
              have h2 : accLoop (line :: rest.filter (fun l => !isJunkLine l)) a =
                  accLoop (rest.filter (fun l => !isJunkLine l)) (accEvent a kvs) := by
                simp only [accLoop, hb, Bool.false_eq_true, if_false, hd, if_false, hp]
              rw [h1, h2, ih]

/-- **C5.** End-to-end streaming: the two `Hel`/`lo` delta events followed by
the sentinel yield content `"Hello"`, empty reasoning, event count 2 and done
flag true; in general the decoder stops consuming at the first sentinel line,
and the accumulated content fragments are exactly the per-line fragments of
the consumed prefix, concatenated in arrival order. -/
theorem stream_end_to_end :
    parseStreamAndAccumulate
        ["data: \x7b\"choices\":[\x7b\"delta\":\x7b\"content\":\"Hel\"\x7d\x7d]\x7d",
         "data: \x7b\"choices\":[\x7b\"delta\":\x7b\"content\":\"lo\"\x7d\x7d]\x7d",
         "data: [DONE]"] = ("Hello", "", ⟨true, 2⟩) ∧
    (∀ (pre : List String) (s : String) (post : List String),
      (∀ l ∈ pre, lineData l ≠ "[DONE]".data) → lineData s = "[DONE]".data →
      parseStreamAndAccumulate (pre ++ s :: post) = parseStreamAndAccumulate (pre ++ [s])) ∧
    (∀ lines : List String,
      (accLoop lines accInit).contentParts =
        (lines.takeWhile (fun l => !(lineData l == "[DONE]".data))).flatMap lineContentFrags) := by
  refine ⟨rfl, ?_, ?_⟩
  · intro pre s post hpre hs
    unfold parseStreamAndAccumulate
    rw [accLoop_stop pre s post accInit hpre hs]
  · intro lines
    rw [accLoop_contentParts]
    rfl

theorem stream_end_to_end_witness :
    parseStreamAndAccumulate
        (["data: \x7b\"choices\":[\x7b\"delta\":\x7b\"content\":\"A\"\x7d\x7d]\x7d"] ++
          "data: [DONE]" :: ["data: \x7b\"choices\":[\x7b\"delta\":\x7b\"content\":\"B\"\x7d\x7d]\x7d"]) =
      parseStreamAndAccumulate
        (["data: \x7b\"choices\":[\x7b\"delta\":\x7b\"content\":\"A\"\x7d\x7d]\x7d"] ++ ["data: [DONE]"]) :=
  stream_end_to_end.2.1 ["data: \x7b\"choices\":[\x7b\"delta\":\x7b\"content\":\"A\"\x7d\x7d]\x7d"]
    "data: [DONE]" ["data: \x7b\"choices\":[\x7b\"delta\":\x7b\"content\":\"B\"\x7d\x7d]\x7d"]
    (by intro l hl; simp at hl; subst hl; decide) (by decide)

/-- **C6.** Malformed-event tolerance: deleting every junk line (non-blank,
non-sentinel, not parsing to a mapping) from the input leaves the decoder's
entire result unchanged, and the event count equals the number of mapping
events in the consumed prefix alone. -/
theorem stream_junk_tolerance :
    (∀ lines : List String,
      parseStreamAndAccumulate lines =
        parseStreamAndAccumulate (lines.filter (fun l => !isJunkLine l))) ∧
    (∀ lines : List String,
      (parseStreamAndAccumulate lines).2.2.chunks =
        ((lines.takeWhile (fun l => !(lineData l == "[DONE]".data))).filter
          isEventLine).length) := by
  constructor
  · intro lines
    unfold parseStreamAndAccumulate
    rw [accLoop_junk_filter]
  · intro lines
    show (accLoop lines accInit).chunks = _
    rw [accLoop_chunks]
    simp [accInit]

/-- **C1 counterexample.** A stream with no dedicated-channel reasoning whose
concatenated content is `"answer: hi"`: the splitter's de-scaffolded remainder
is `"hi"`, but the decoder returns the content un-de-scaffolded (the split
result is only adopted when its extracted thinking is non-empty). -/
theorem stream_inline_split_counterexample :
    parseStreamAndAccumulate
        ["data: \x7b\"choices\":[\x7b\"delta\":\x7b\"content\":\"answer: hi\"\x7d\x7d]\x7d",
         "data: [DONE]"] = ("answer: hi", "", ⟨true, 1⟩) ∧
    splitFromContent "answer: hi" = ("", "hi") ∧
    ("answer: hi" : String) ≠ "hi" :=
  ⟨rfl, rfl, by decide⟩

/-- **C1 (amended).** When no reasoning arrived on the dedicated channel and
the concatenated content is non-empty, the decoder applies the inline-marker
split to the stripped concatenated content but adopts its result only when
the extracted thinking is non-empty; otherwise content is returned as the
stripped concatenation, not de-scaffolded. -/
theorem stream_inline_split_amended (lines : List String)
    (hr : (pyStrip (String.join (accLoop lines accInit).reasoningParts).data).isEmpty = true)
    (hc : (pyStrip (String.join (accLoop lines accInit).contentParts).data).isEmpty = false) :
    parseStreamAndAccumulate lines =
      (if (splitFromContent
            ⟨pyStrip (String.join (accLoop lines accInit).contentParts).data⟩).1 ≠ "" then
        ((splitFromContent
            ⟨pyStrip (String.join (accLoop lines accInit).contentParts).data⟩).2,
         (splitFromContent
            ⟨pyStrip (String.join (accLoop lines accInit).contentParts).data⟩).1,
         ⟨(accLoop lines accInit).done, (accLoop lines accInit).chunks⟩)
      else
        (⟨pyStrip (String.join (accLoop lines accInit).contentParts).data⟩, "",
         ⟨(accLoop lines accInit).done, (accLoop lines accInit).chunks⟩)) := by
  unfold parseStreamAndAccumulate
  have hre : pyStrip (String.join (accLoop lines accInit).reasoningParts).data = [] := by
    rcases hp : pyStrip (String.join (accLoop lines accInit).reasoningParts).data with _ | _
    · rfl
    · rw [hp] at hr; simp at hr
  simp only [hre, hc, List.isEmpty_nil, Bool.not_false, Bool.and_self, if_true]
  split
  · rename_i hthink
    simp only [ne_eq, hthink, if_true]
  · rename_i hthink
    simp only [ne_eq, hthink, if_false]

theorem stream_inline_split_amended_witness :
    parseStreamAndAccumulate
        ["data: \x7b\"choices\":[\x7b\"delta\":\x7b\"content\":\"<think>plan</think>result\"\x7d\x7d]\x7d",
         "data: [DONE]"] = ("result", "plan", ⟨true, 1⟩) :=
  (stream_inline_split_amended
      ["data: \x7b\"choices\":[\x7b\"delta\":\x7b\"content\":\"<think>plan</think>result\"\x7d\x7d]\x7d",
       "data: [DONE]"] rfl rfl).trans (by rfl)

/-!
## Embedded JSON extractor
-/

/-- A fence language-tag character (`[a-zA-Z0-9_-]`). -/
def isTagChar (c : Char) : Bool :=
  c.isAlpha || c.isDigit || c = '_' || c = '-'

/-- The fence-stripping step of `_extract_json_from_text`: when the trimmed
text starts with a triple backtick, remove the opening fence (backticks, a
maximal tag, then whitespace per `^```[a-zA-Z0-9_-]*\s*`) and, when the
result ends with a triple backtick, the trailing `\s*```$`; then strip. -/
def fenceStrip (t : List Char) : List Char :=
  if "```".data.isPrefixOf t then
    let t1 := ((t.drop 3).dropWhile isTagChar).dropWhile isPws
    let t2 :=
      if "```".data.isSuffixOf t1 then dropTrail isPws (t1.take (t1.length - 3)) else t1
    pyStrip t2
  else t

/-- The bounded suffix-trimming loop of `_extract_json_from_text`
(`for i in range(0, min(4000, len(candidate)))` with its break on an empty
stripped chunk). -/
def trimScanAux (candidate : List Char) : Nat → Nat → Option Json
  | _, 0 => none
  | i, Nat.succ f =>
    let chunk := pyStrip (candidate.take (candidate.length - i))
    if chunk.isEmpty then none
    else
      match safeJsonLoads ⟨chunk⟩ with
      | some v => some v
      | none => trimScanAux candidate (i + 1) f

/-- The bounded scan, started at `i = 0`. -/
def trimScan (candidate : List Char) : Option Json :=
  trimScanAux candidate 0 (min 4000 candidate.length)

/-- Embeds `_extract_json_from_text`. -/
def extractJsonFromText (text : String) : Option Json :=
  if text = "" then none
  else
    let t := fenceStrip (pyStrip text.data)
    match safeJsonLoads ⟨t⟩ with
    | some direct => some direct
    | none =>
      let objStart := t.findIdx? (fun c => c = '{')
      let arrStart := t.findIdx? (fun c => c = '[')
      match objStart, arrStart with
      | none, none => none
      | some o, none => trimScan (pyStrip (t.drop o))
      | none, some ar => trimScan (pyStrip (t.drop ar))
      | some o, some ar =>
        if o < ar then trimScan (pyStrip (t.drop o)) else trimScan (pyStrip (t.drop ar))

/-- The bounded search as the specification words it: among the candidates
obtained by trimming `i` trailing characters (then stripping), for
`i < min 4000 (length)`, the first one that parses; absence if the search
exhausts. -/
def specScan (candidate : List Char) : Option Json :=
  (List.range (min 4000 candidate.length)).findSome?
    (fun i => safeJsonLoads ⟨pyStrip (candidate.take (candidate.length - i))⟩)

example : extractJsonFromText "```json\n\x7b\"a\": 1\x7d\n```" =
    some (Json.obj [("a", Json.num "1")]) := by rfl
example : extractJsonFromText "noise \x7b\"a\":1\x7d stop here" =
    some (Json.obj [("a", Json.num "1")]) := by rfl
example : extractJsonFromText "no json here" = none := by rfl
example : extractJsonFromText "  [1, 2] trailing" = some (Json.arr [Json.num "1", Json.num "2"]) := by rfl

theorem pyStrip_eq_nil_iff {l : List Char} : pyStrip l = [] ↔ ∀ c ∈ l, isPws c = true := by
  constructor
  · intro h c hc
    have hsplit := List.takeWhile_append_dropWhile isPws l
    have hdnil : ∀ x ∈ l.dropWhile isPws, isPws x = true := by
      intro x hx
      have : (l.dropWhile isPws).reverse.dropWhile isPws = [] := by
        have : pyStrip l = [] := h
        unfold pyStrip dropTrail at this
        have hrev := congrArg List.reverse this
        simpa using hrev
      have := List.dropWhile_eq_nil_iff.mp this x (by simpa using hx)
      exact this
    rw [← hsplit] at hc
    rcases List.mem_append.mp hc with h1 | h2
    · exact List.mem_takeWhile_imp h1
    · exact hdnil _ h2
  · intro h
    unfold pyStrip dropTrail
    have h1 : l.dropWhile isPws = [] := List.dropWhile_eq_nil_iff.mpr h
    rw [h1]
    rfl

theorem findIdx?_ge {p : Char → Bool} (l : List Char) (j k : Nat)
    (h : l.findIdx? p j = some k) : j ≤ k := by
  induction l generalizing j with
  | nil => simp [List.findIdx?] at h
  | cons c l ih =>
    rw [List.findIdx?_cons] at h
    by_cases hp : p c = true
    · rw [hp] at h; simp at h; omega
    · have hp' : p c = false := by
        rcases hq : p c
        · rfl
        · exact absurd hq hp
      rw [hp'] at h
      simp only [Bool.false_eq_true, if_false] at h
      have := ih (j + 1) h
      omega

theorem start_choice (l : List Char) (i : Nat) :
    (match l.findIdx? (fun c => c = '{') i, l.findIdx? (fun c => c = '[') i with
     | none, none => none
     | some o, none => some o
     | none, some a => some a
     | some o, some a => some (if o < a then o else a)) =
      l.findIdx? (fun c => c = '{' || c = '[') i := by
  induction l generalizing i with
  | nil => simp [List.findIdx?]
  | cons c l ih =>
    simp only [List.findIdx?_cons]
    by_cases h1 : c = '{'
    · subst h1
      cases ha : List.findIdx? (fun c => c = '[') l (i + 1) with
      | none => simp [ha]
      | some a =>
        have hge := findIdx?_ge l (i + 1) a ha
        simp [ha, show i < a by omega]
    · by_cases h2 : c = '['
      · subst h2
        cases ho : List.findIdx? (fun c => c = '{') l (i + 1) with
        | none => simp [ho]
        | some o =>
          have hge := findIdx?_ge l (i + 1) o ho
          simp [ho, show ¬(o < i) by omega]
      · have e2 : (decide (c = '{')) = false := by simp [h1]
        have e3 : (decide (c = '[')) = false := by simp [h2]
        rw [e2, e3]
        simp only [Bool.or_self, Bool.false_eq_true, if_false]
        exact ih (i + 1)

theorem trimScanAux_eq_range' (cand : List Char) (f i : Nat) :
    trimScanAux cand i f =
      (List.range' i f).findSome?
        (fun j => safeJsonLoads ⟨pyStrip (cand.take (cand.length - j))⟩) := by
  induction f generalizing i with
  | zero => simp [trimScanAux]
  | succ f ih =>
    rw [List.range'_succ, List.findSome?_cons]
    unfold trimScanAux
    by_cases hemp : (pyStrip (cand.take (cand.length - i))).isEmpty
    · have hnil : pyStrip (cand.take (cand.length - i)) = [] := by
        rcases hp : pyStrip (cand.take (cand.length - i)) with _ | _
        · rfl
        · rw [hp] at hemp; simp at hemp
      have hall : ∀ c ∈ cand.take (cand.length - i), isPws c = true :=
        pyStrip_eq_nil_iff.mp hnil
      have hallj : ∀ j, i ≤ j → pyStrip (cand.take (cand.length - j)) = [] := by
        intro j hj
        apply pyStrip_eq_nil_iff.mpr
        intro c hc
        apply hall
        have hsub : cand.take (cand.length - j) ⊆ cand.take (cand.length - i) := by
          have : cand.take (cand.length - j) =
              (cand.take (cand.length - i)).take (cand.length - j) := by
            rw [List.take_take]
            congr 1
            omega
          rw [this]
          exact List.take_subset _ _
        exact hsub hc
      have hnone : safeJsonLoads ⟨([] : List Char)⟩ = none := rfl
      rw [hnil, hnone]
      simp only [List.isEmpty_nil, if_true]
      have : List.findSome?
          (fun j => safeJsonLoads ⟨pyStrip (cand.take (cand.length - j))⟩)
          (List.range' (i + 1) f) = none := by
        apply List.findSome?_eq_none_iff.mpr
        intro j hj
        have hji : i + 1 ≤ j := by
          have := List.mem_range'.mp hj
          omega
        rw [hallj j (by omega)]
        rfl
      rw [this]
    · have hemp' : (pyStrip (cand.take (cand.length - i))).isEmpty = false := by
        rcases hq : (pyStrip (cand.take (cand.length - i))).isEmpty
        · rfl
        · exact absurd hq hemp
      simp only [hemp', Bool.false_eq_true, if_false]
      cases hp : safeJsonLoads ⟨pyStrip (cand.take (cand.length - i))⟩ with
      | some v => rfl
      | none => exact ih (i + 1)

theorem trimScan_eq_specScan (cand : List Char) : trimScan cand = specScan cand := by
  unfold trimScan specScan
  rw [trimScanAux_eq_range' cand (min 4000 cand.length) 0, List.range_eq_range']

/-- **C7.** When the direct parse of the trimmed, fence-stripped text fails,
the extractor returns absence if the text has neither `{` nor `[`, and
otherwise runs the bounded suffix-trimming search from the earliest opening
bracket of either kind: at most `min 4000 (length)` attempts, one trailing
character trimmed per attempt, first parsing candidate wins, absence on
exhaustion. -/
theorem extract_after_direct_failure (text : String)
    (hfail : safeJsonLoads ⟨fenceStrip (pyStrip text.data)⟩ = none) :
    extractJsonFromText text =
      (match (fenceStrip (pyStrip text.data)).findIdx? (fun c => c = '{' || c = '[') with
       | none => none
       | some start =>
         specScan (pyStrip ((fenceStrip (pyStrip text.data)).drop start))) := by
  rw [← start_choice (fenceStrip (pyStrip text.data)) 0]
  by_cases hempty : text = ""
  · subst hempty
    rfl
  · unfold extractJsonFromText
    simp only [hempty, if_false, hfail]
    cases ho : (fenceStrip (pyStrip text.data)).findIdx? (fun c => c = '{') 0 with
    | none =>
      cases ha : (fenceStrip (pyStrip text.data)).findIdx? (fun c => c = '[') 0 with
      | none => rfl
      | some a => simp [trimScan_eq_specScan]
    | some o =>
      cases ha : (fenceStrip (pyStrip text.data)).findIdx? (fun c => c = '[') 0 with
      | none => simp [trimScan_eq_specScan]
      | some a =>
        by_cases hlt : o < a
        · simp [hlt, trimScan_eq_specScan]
        · simp [hlt, trimScan_eq_specScan]

theorem extract_after_direct_failure_witness :
    extractJsonFromText "noise \x7b\"a\":1\x7d stop here" = some (Json.obj [("a", Json.num "1")]) :=
  (extract_after_direct_failure "noise \x7b\"a\":1\x7d stop here" (by rfl)).trans (by rfl)

/-!
## Whitespace-robustness of `loads` (towards claim C3)

The round-trip claim needs: a successful parse is unaffected by removing
Python-whitespace padding.  The lemmas below classify the whitespace
characters, show every component of the parser is stable under removing an
all-whitespace suffix, and show the parser's fuel is irrelevant once
sufficient.
-/

theorem pws_class {c : Char} (h : isPws c = true) : c.toNat < 33 ∨ 133 ≤ c.toNat := by
  simp [isPws] at h
  omega

theorem pws_ne {c d : Char} (hc : isPws c = true) (h1 : 33 ≤ d.toNat) (h2 : d.toNat ≤ 126) :
    c ≠ d := by
  intro he
  subst he
  rcases pws_class hc with h | h <;> omega

theorem jws_pws {c : Char} (h : isJws c = true) : isPws c = true := by
  simp only [isJws, Bool.or_eq_true, decide_eq_true_eq] at h
  rcases h with ((h | h) | h) | h <;> subst h <;> decide

theorem digit_toNat {c : Char} (h : c.isDigit = true) : 48 ≤ c.toNat ∧ c.toNat ≤ 57 := by
  simp [Char.isDigit] at h
  exact h

theorem pws_not_digit {c : Char} (h : isPws c = true) : c.isDigit = false := by
  rcases hb : c.isDigit
  · rfl
  · exfalso
    have := digit_toNat hb
    rcases pws_class h with h' | h' <;> omega

theorem digit_not_pws {c : Char} (h : c.isDigit = true) : isPws c = false := by
  rcases hb : isPws c
  · rfl
  · exfalso
    have := digit_toNat h
    rcases pws_class hb with h' | h' <;> omega

theorem pws_hexVal {c : Char} (h : isPws c = true) : hexVal c = none := by
  have hc := pws_class h
  unfold hexVal
  split_ifs with h1 h2 h3
  · exfalso; simp at h1; omega
  · exfalso; simp at h2; omega
  · exfalso; simp at h3; omega
  · rfl

theorem dropWhile_head_false {p : Char → Bool} {l : List Char} {c : Char} {r : List Char}
    (h : l.dropWhile p = c :: r) : p c = false := by
  induction l with
  | nil => simp at h
  | cons x xs ih =>
    rw [List.dropWhile_cons] at h
    split_ifs at h with hx
    · exact ih h
    · cases h
      rcases hq : p c
      · rfl
      · rw [hq] at hx; exact absurd rfl hx

theorem dropWhile_all {p : Char → Bool} {l : List Char} (h : ∀ c ∈ l, p c = true) :
    l.dropWhile p = [] :=
  List.dropWhile_eq_nil_iff.mpr h

theorem dropWhile_append_all {p : Char → Bool} {w x : List Char}
    (h : ∀ c ∈ w, p c = true) : (w ++ x).dropWhile p = x.dropWhile p := by
  rw [List.dropWhile_append, dropWhile_all h]
  simp

theorem dropWhile_subset' {p : Char → Bool} {l : List Char} :
    ∀ c ∈ l.dropWhile p, c ∈ l := by
  intro c hc
  exact List.dropWhile_subset p hc

theorem pV_nil (f : Nat) : pV f [] = none := by
  cases f <;> rfl

/-- When the (whitespace-skipped) input is empty or starts with a
Python-whitespace character that is not JSON whitespace, every component of
the parser fails. -/
theorem stuckAll (f : Nat) : ∀ X : List Char,
    (dropJWs X = [] ∨ ∃ c r', dropJWs X = c :: r' ∧ isPws c = true ∧ isJws c = false) →
    pV f X = none ∧ pEStart f X = none ∧ pERest f X = none ∧
      pMem f X = none ∧ pMStart f X = none ∧ pMRest f X = none := by
  induction f with
  | zero => intro X _; exact ⟨rfl, rfl, rfl, rfl, rfl, rfl⟩
  | succ f ih =>
    intro X hX
    rcases hX with hnil | ⟨c, r', hcr, hpw, hjw⟩
    · refine ⟨?_, ?_, ?_, ?_, ?_, ?_⟩
      · simp [pV, hnil]
      · simp [pEStart, hnil, pV_nil]
      · simp [pERest, hnil]
      · simp [pMem, hnil]
      · simp [pMStart, hnil, (ih X (Or.inl hnil)).2.2.2.1]
      · simp [pMRest, hnil]
    · have hne : ∀ d : Char, 33 ≤ d.toNat → d.toNat ≤ 126 → ¬(c = d) := by
        intro d h1 h2
        exact pws_ne hpw h1 h2
      have hdig : c.isDigit = false := pws_not_digit hpw
      have hdropc : dropJWs (c :: r') = c :: r' := by
        unfold dropJWs
        rw [List.dropWhile_cons, hjw]
        simp
      have hpv : pV f (c :: r') = none :=
        (ih (c :: r') (Or.inr ⟨c, r', hdropc, hpw, hjw⟩)).1
      have hm : pMem f X = none :=
        (ih X (Or.inr ⟨c, r', hcr, hpw, hjw⟩)).2.2.2.1
      refine ⟨?_, ?_, ?_, ?_, ?_, ?_⟩
      · simp [pV, hcr, hne '{' (by decide) (by decide), hne '[' (by decide) (by decide),
          hne '"' (by decide) (by decide), hne 't' (by decide) (by decide),
          hne 'f' (by decide) (by decide), hne 'n' (by decide) (by decide),
          hne 'N' (by decide) (by decide), hne 'I' (by decide) (by decide),
          hne '-' (by decide) (by decide), hdig]
      · simp [pEStart, hcr, hne ']' (by decide) (by decide), hpv]
      · simp [pERest, hcr, hne ']' (by decide) (by decide), hne ',' (by decide) (by decide)]
      · simp [pMem, hcr, hne '"' (by decide) (by decide)]
      · simp [pMStart, hcr, hne '}' (by decide) (by decide), hm]
      · simp [pMRest, hcr, hne '}' (by decide) (by decide), hne ',' (by decide) (by decide)]

theorem consStr_map (c : Char) (o : Option (List Char × List Char)) (e : List Char) :
    consStr c (o.map (fun p => (p.1, p.2 ++ e))) = (consStr c o).map (fun p => (p.1, p.2 ++ e)) := by
  cases o <;> rfl

theorem strLoop_pws {e : List Char} (he : ∀ c ∈ e, isPws c = true) :
    ∀ st : SState, strLoop st e = none := by
  induction e with
  | nil => intro st; cases st <;> rfl
  | cons c e' ih =>
    have hc : isPws c = true := he c (List.mem_cons_self c e')
    have hne : ∀ d : Char, 33 ≤ d.toNat → d.toNat ≤ 126 → ¬(c = d) :=
      fun d h1 h2 => pws_ne hc h1 h2
    have ih' := ih (fun x hx => he x (List.mem_cons_of_mem c hx))
    intro st
    cases st with
    | plain =>
      by_cases h32 : c.toNat < 32
      · simp [strLoop, hne '"' (by decide) (by decide), hne '\\' (by decide) (by decide), h32]
      · simp [strLoop, hne '"' (by decide) (by decide), hne '\\' (by decide) (by decide), h32,
          ih' SState.plain, consStr]
    | esc =>
      simp [strLoop, hne '"' (by decide) (by decide), hne '\\' (by decide) (by decide),
        hne '/' (by decide) (by decide), hne 'b' (by decide) (by decide),
        hne 'f' (by decide) (by decide), hne 'n' (by decide) (by decide),
        hne 'r' (by decide) (by decide), hne 't' (by decide) (by decide),
        hne 'u' (by decide) (by decide)]
    | ux acc k => simp [strLoop, pws_hexVal hc]
    | sur1 hi => simp [strLoop, hne '\\' (by decide) (by decide)]
    | sur2 hi => simp [strLoop, hne 'u' (by decide) (by decide)]
    | lx hi acc k => simp [strLoop, pws_hexVal hc]

theorem strLoop_append {e : List Char} (he : ∀ c ∈ e, isPws c = true) :
    ∀ (l : List Char) (st : SState),
      strLoop st (l ++ e) = (strLoop st l).map (fun p => (p.1, p.2 ++ e)) := by
  intro l
  induction l with
  | nil =>
    intro st
    rw [List.nil_append, strLoop_pws he st]
    cases st <;> rfl
  | cons c l' ih =>
    intro st
    cases st with
    | plain =>
      by_cases h1 : c = '"'
      · subst h1; simp [strLoop]
      · by_cases h2 : c = '\\'
        · subst h2; simp [strLoop, ih SState.esc]
        · by_cases h32 : c.toNat < 32
          · simp [strLoop, h1, h2, h32]
          · simp only [List.cons_append, strLoop, h1, h2, h32, if_false,
              Bool.false_eq_true, ite_false, List.append_eq]
            rw [ih SState.plain, consStr_map]
    | esc =>
      by_cases h1 : c = '"'
      · subst h1; simp [strLoop, ih SState.plain, consStr_map]
      · by_cases h2 : c = '\\'
        · subst h2; simp [strLoop, ih SState.plain, consStr_map]
        · by_cases h3 : c = '/'
          · subst h3; simp [strLoop, ih SState.plain, consStr_map]
          · by_cases h4 : c = 'b'
            · subst h4; simp [strLoop, h1, h2, h3, ih SState.plain, consStr_map]
            · by_cases h5 : c = 'f'
              · subst h5; simp [strLoop, h1, h2, h3, h4, ih SState.plain, consStr_map]
              · by_cases h6 : c = 'n'
                · subst h6; simp [strLoop, h1, h2, h3, h4, h5, ih SState.plain, consStr_map]
                · by_cases h7 : c = 'r'
                  · subst h7
                    simp [strLoop, h1, h2, h3, h4, h5, h6, ih SState.plain, consStr_map]
                  · by_cases h8 : c = 't'
                    · subst h8
                      simp [strLoop, h1, h2, h3, h4, h5, h6, h7, ih SState.plain, consStr_map]
                    · by_cases h9 : c = 'u'
                      · subst h9
                        simp [strLoop, h1, h2, h3, h4, h5, h6, h7, h8, ih (SState.ux 0 0)]
                      · simp [strLoop, h1, h2, h3, h4, h5, h6, h7, h8, h9]
    | ux acc k =>
      cases hv : hexVal c with
      | none => simp [strLoop, hv]
      | some v =>
        by_cases hk : k = 3
        · subst hk
          by_cases hs1 : (0xD800 ≤ acc * 16 + v && acc * 16 + v ≤ 0xDBFF) = true
          · simp [strLoop, hv, hs1, ih (SState.sur1 (acc * 16 + v))]
          · by_cases hs2 : (0xDC00 ≤ acc * 16 + v && acc * 16 + v ≤ 0xDFFF) = true
            · simp [strLoop, hv, hs1, hs2]
            · simp [strLoop, hv, hs1, hs2, ih SState.plain, consStr_map]
        · simp [strLoop, hv, hk, ih (SState.ux (acc * 16 + v) (k + 1))]
    | sur1 hi =>
      by_cases h1 : c = '\\'
      · subst h1; simp [strLoop, ih (SState.sur2 hi)]
      · simp [strLoop, h1]
    | sur2 hi =>
      by_cases h1 : c = 'u'
      · subst h1; simp [strLoop, ih (SState.lx hi 0 0)]
      · simp [strLoop, h1]
    | lx hi acc k =>
      cases hv : hexVal c with
      | none => simp [strLoop, hv]
      | some v =>
        by_cases hk : k = 3
        · subst hk
          by_cases hs1 : (0xDC00 ≤ acc * 16 + v && acc * 16 + v ≤ 0xDFFF) = true
          · simp [strLoop, hv, hs1, ih SState.plain, consStr_map]
          · simp [strLoop, hv, hs1]
        · simp [strLoop, hv, hk, ih (SState.lx hi (acc * 16 + v) (k + 1))]

theorem parseStrBody_append {e : List Char} (he : ∀ c ∈ e, isPws c = true) (l : List Char) :
    parseStrBody (l ++ e) = (parseStrBody l).map (fun p => (p.1, p.2 ++ e)) :=
  strLoop_append he l SState.plain

theorem strLoop_len : ∀ (l : List Char) (st : SState) {cs r : List Char},
    strLoop st l = some (cs, r) → r.length < l.length := by
  intro l
  induction l with
  | nil => intro st cs r h; cases st <;> simp [strLoop] at h
  | cons c l' ih =>
    intro st cs r h
    have step : ∀ st', ∀ {cs' : List Char}, strLoop st' l' = some (cs', r) →
        r.length < (c :: l').length := by
      intro st' cs' h'
      have := ih st' h'
      simp only [List.length_cons]
      omega
    have stepCons : ∀ st' (d : Char), consStr d (strLoop st' l') = some (cs, r) →
        r.length < (c :: l').length := by
      intro st' d h'
      unfold consStr at h'
      rcases ho : strLoop st' l' with _ | ⟨cs', r'⟩ <;> rw [ho] at h'
      · simp at h'
      · simp at h'
        obtain ⟨-, h2⟩ := h'
        subst h2
        have := ih st' ho
        simp only [List.length_cons]
        omega
    cases st with
    | plain =>
      by_cases h1 : c = '"'
      · subst h1
        simp [strLoop] at h
        obtain ⟨-, h2⟩ := h
        subst h2
        simp
      · by_cases h2 : c = '\\'
        · subst h2
          simp [strLoop] at h
          exact step SState.esc h
        · by_cases h32 : c.toNat < 32
          · simp [strLoop, h1, h2, h32] at h
          · simp [strLoop, h1, h2, h32] at h
            exact stepCons SState.plain c h
    | esc =>
      by_cases h1 : c = '"'
      · subst h1; simp [strLoop] at h; exact stepCons SState.plain '"' h
      · by_cases h2 : c = '\\'
        · subst h2; simp [strLoop] at h; exact stepCons SState.plain '\\' h
        · by_cases h3 : c = '/'
          · subst h3; simp [strLoop] at h; exact stepCons SState.plain '/' h
          · by_cases h4 : c = 'b'
            · subst h4
              simp [strLoop, h1, h2, h3] at h
              exact stepCons SState.plain (Char.ofNat 8) h
            · by_cases h5 : c = 'f'
              · subst h5
                simp [strLoop, h1, h2, h3, h4] at h
                exact stepCons SState.plain (Char.ofNat 12) h
              · by_cases h6 : c = 'n'
                · subst h6
                  simp [strLoop, h1, h2, h3, h4, h5] at h
                  exact stepCons SState.plain '\n' h
                · by_cases h7 : c = 'r'
                  · subst h7
                    simp [strLoop, h1, h2, h3, h4, h5, h6] at h
                    exact stepCons SState.plain '\r' h
                  · by_cases h8 : c = 't'
                    · subst h8
                      simp [strLoop, h1, h2, h3, h4, h5, h6, h7] at h
                      exact stepCons SState.plain '\t' h
                    · by_cases h9 : c = 'u'
                      · subst h9
                        simp [strLoop, h1, h2, h3, h4, h5, h6, h7, h8] at h
                        exact step (SState.ux 0 0) h
                      · simp [strLoop, h1, h2, h3, h4, h5, h6, h7, h8, h9] at h
    | ux acc k =>
      rcases hv : hexVal c with _ | v
      · simp [strLoop, hv] at h
      · by_cases hk : k = 3
        · subst hk
          by_cases hs1 : (0xD800 ≤ acc * 16 + v && acc * 16 + v ≤ 0xDBFF) = true
          · simp [strLoop, hv, hs1] at h
            exact step (SState.sur1 (acc * 16 + v)) h
          · by_cases hs2 : (0xDC00 ≤ acc * 16 + v && acc * 16 + v ≤ 0xDFFF) = true
            · simp [strLoop, hv, hs1, hs2] at h
            · simp [strLoop, hv, hs1, hs2] at h
              exact stepCons SState.plain (Char.ofNat (acc * 16 + v)) h
        · simp [strLoop, hv, hk] at h
          exact step (SState.ux (acc * 16 + v) (k + 1)) h
    | sur1 hi =>
      by_cases h1 : c = '\\'
      · subst h1; simp [strLoop] at h; exact step (SState.sur2 hi) h
      · simp [strLoop, h1] at h
    | sur2 hi =>
      by_cases h1 : c = 'u'
      · subst h1; simp [strLoop] at h; exact step (SState.lx hi 0 0) h
      · simp [strLoop, h1] at h
    | lx hi acc k =>
      rcases hv : hexVal c with _ | v
      · simp [strLoop, hv] at h
      · by_cases hk : k = 3
        · subst hk
          by_cases hs1 : (0xDC00 ≤ acc * 16 + v && acc * 16 + v ≤ 0xDFFF) = true
          · simp [strLoop, hv, hs1] at h
            exact stepCons SState.plain
              (Char.ofNat (0x10000 + (hi - 0xD800) * 1024 + (acc * 16 + v - 0xDC00))) h
          · simp [strLoop, hv, hs1] at h
        · simp [strLoop, hv, hk] at h
          exact step (SState.lx hi (acc * 16 + v) (k + 1)) h

theorem parseStrBody_len {l cs r : List Char} (h : parseStrBody l = some (cs, r)) :
    r.length < l.length :=
  strLoop_len l SState.plain h

theorem parseStrBody_pws {e : List Char} (he : ∀ c ∈ e, isPws c = true) :
    parseStrBody e = none :=
  strLoop_pws he SState.plain

theorem takeWhile_digit_append {e : List Char} (he : ∀ c ∈ e, isPws c = true) (x : List Char) :
    (x ++ e).takeWhile Char.isDigit = x.takeWhile Char.isDigit ∧
      (x ++ e).dropWhile Char.isDigit = x.dropWhile Char.isDigit ++ e := by
  induction x with
  | nil =>
    rcases e with _ | ⟨c, e'⟩
    · exact ⟨rfl, rfl⟩
    · have hd := pws_not_digit (he c (List.mem_cons_self c e'))
      constructor
      · simp [List.takeWhile_cons, hd]
      · simp [List.dropWhile_cons, hd]
  | cons c x' ih =>
    rcases hd : c.isDigit
    · constructor
      · simp [List.takeWhile_cons, hd]
      · simp [List.dropWhile_cons, hd]
    · constructor
      · simp [List.takeWhile_cons, hd, ih.1]
      · simp [List.dropWhile_cons, hd, ih.2]

theorem numFrac_append {e : List Char} (he : ∀ c ∈ e, isPws c = true) (x : List Char) :
    numFrac (x ++ e) = ((numFrac x).1, (numFrac x).2 ++ e) := by
  rcases x with _ | ⟨c, x'⟩
  · rcases e with _ | ⟨c, e'⟩
    · rfl
    · have hp : ¬(c = '.') :=
        pws_ne (he c (List.mem_cons_self c e')) (by decide) (by decide)
      simp [numFrac, hp]
  · by_cases hc : c = '.'
    · subst hc
      obtain ⟨ht, hd⟩ := takeWhile_digit_append he x'
      simp only [List.cons_append, numFrac, ht, hd]
      by_cases hemp : (x'.takeWhile Char.isDigit).isEmpty
      · simp [hemp]
      · simp [hemp]
    · simp [numFrac, hc]

theorem numExp_append {e : List Char} (he : ∀ c ∈ e, isPws c = true) (x : List Char) :
    numExp (x ++ e) = ((numExp x).1, (numExp x).2 ++ e) := by
  rcases x with _ | ⟨c, x'⟩
  · rcases e with _ | ⟨c, e'⟩
    · rfl
    · have h1 : ¬(c = 'e') :=
        pws_ne (he c (List.mem_cons_self c e')) (by decide) (by decide)
      have h2 : ¬(c = 'E') :=
        pws_ne (he c (List.mem_cons_self c e')) (by decide) (by decide)
      simp [numExp, h1, h2]
  · by_cases hce : (c = 'e' || c = 'E') = true
    · rcases x' with _ | ⟨s, x''⟩
      · rcases e with _ | ⟨d, e'⟩
        · simp
        · have hdp : isPws d = true := he d (List.mem_cons_self d e')
          have h1 : ¬(d = '+') := pws_ne hdp (by decide) (by decide)
          have h2 : ¬(d = '-') := pws_ne hdp (by decide) (by decide)
          have h3 : d.isDigit = false := pws_not_digit hdp
          simp [numExp, hce, h1, h2, List.takeWhile_cons, h3]
      · by_cases hs : (s = '+' || s = '-') = true
        · obtain ⟨ht, hd⟩ := takeWhile_digit_append he x''
          simp only [List.cons_append, numExp, hce, if_true, hs, ht, hd]
          by_cases hemp : (x''.takeWhile Char.isDigit).isEmpty
          · simp [hemp]
          · simp [hemp]
        · obtain ⟨ht, hd⟩ := takeWhile_digit_append he (s :: x'')
          simp only [List.cons_append, numExp, hce, if_true, hs, Bool.false_eq_true, if_false]
          rw [show s :: (x'' ++ e) = (s :: x'') ++ e from rfl, ht, hd]
          by_cases hemp : ((s :: x'').takeWhile Char.isDigit).isEmpty
          · simp [hemp]
          · simp [hemp]
    · simp [numExp, hce]

theorem numTail_append {e : List Char} (he : ∀ c ∈ e, isPws c = true) (i y : List Char) :
    numTail i (y ++ e) = ((numTail i y).1, (numTail i y).2 ++ e) := by
  unfold numTail
  rw [numFrac_append he y]
  dsimp only
  rw [numExp_append he (numFrac y).2]

theorem parseUNum_append {e : List Char} (he : ∀ c ∈ e, isPws c = true) (x : List Char) :
    parseUNum (x ++ e) = (parseUNum x).map (fun p => (p.1, p.2 ++ e)) := by
  rcases x with _ | ⟨c, x'⟩
  · rcases e with _ | ⟨c, e'⟩
    · rfl
    · have hp : isPws c = true := he c (List.mem_cons_self c e')
      have h0 : ¬(c = '0') := pws_ne hp (by decide) (by decide)
      have hd : c.isDigit = false := pws_not_digit hp
      simp [parseUNum, h0, hd]
  · by_cases h0 : c = '0'
    · subst h0
      simp only [List.cons_append, parseUNum, if_pos rfl]
      rw [numTail_append he]
      rfl
    · rcases hd : c.isDigit
      · simp [parseUNum, h0, hd]
      · obtain ⟨ht, hdr⟩ := takeWhile_digit_append he x'
        simp only [List.cons_append, parseUNum, h0, if_false, hd, if_true, ht, hdr]
        rw [numTail_append he]
        rfl

theorem parseNumber_append {e : List Char} (he : ∀ c ∈ e, isPws c = true) (x : List Char) :
    parseNumber (x ++ e) = (parseNumber x).map (fun p => (p.1, p.2 ++ e)) := by
  rcases x with _ | ⟨c, x'⟩
  · rcases e with _ | ⟨c, e'⟩
    · rfl
    · have hp : isPws c = true := he c (List.mem_cons_self c e')
      have hm : ¬(c = '-') := pws_ne hp (by decide) (by decide)
      have h0 : ¬(c = '0') := pws_ne hp (by decide) (by decide)
      have hd : c.isDigit = false := pws_not_digit hp
      simp [parseNumber, parseUNum, hm, h0, hd]
  · by_cases hm : c = '-'
    · subst hm
      simp only [List.cons_append, parseNumber, if_pos rfl]
      rw [parseUNum_append he x']
      cases parseUNum x' <;> rfl
    · have h2 := parseUNum_append he (c :: x')
      simp only [List.cons_append] at h2
      simp only [List.cons_append, parseNumber, hm, if_false, h2]

theorem litP_append {e : List Char} (he : ∀ c ∈ e, isPws c = true) :
    ∀ (pat : List Char), (∀ d ∈ pat, 33 ≤ d.toNat ∧ d.toNat ≤ 126) →
      ∀ x, litP pat (x ++ e) = (litP pat x).map (fun r => r ++ e) := by
  intro pat
  induction pat with
  | nil => intro _ x; rfl
  | cons p ps ih =>
    intro hpat x
    rcases x with _ | ⟨c, x'⟩
    · rcases e with _ | ⟨c, e'⟩
      · rfl
      · have hp : isPws c = true := he c (List.mem_cons_self c e')
        have hne : ¬(c = p) :=
          pws_ne hp (hpat p (List.mem_cons_self p ps)).1 (hpat p (List.mem_cons_self p ps)).2
        simp [litP, hne]
    · by_cases hc : c = p
      · simp only [List.cons_append, litP, if_pos hc]
        exact ih (fun d hd => hpat d (List.mem_cons_of_mem p hd)) x'
      · simp [litP, hc]

theorem litP_len : ∀ (pat l r : List Char), litP pat l = some r →
    r.length + pat.length = l.length := by
  intro pat
  induction pat with
  | nil =>
    intro l r h
    simp only [litP] at h
    cases h
    simp
  | cons p ps ih =>
    intro l r h
    rcases l with _ | ⟨c, l'⟩
    · simp [litP] at h
    · by_cases hc : c = p
      · simp only [litP, if_pos hc] at h
        have := ih l' r h
        simp only [List.length_cons]
        omega
      · simp [litP, hc] at h

theorem length_dropWhile_le' (p : Char → Bool) (l : List Char) :
    (l.dropWhile p).length ≤ l.length := by
  induction l with
  | nil => simp
  | cons c l' ih =>
    rw [List.dropWhile_cons]
    split_ifs
    · simp only [List.length_cons]; omega
    · simp

theorem numFrac_len (l : List Char) : (numFrac l).2.length ≤ l.length := by
  rcases l with _ | ⟨c, l'⟩
  · simp [numFrac]
  · by_cases hc : c = '.'
    · subst hc
      simp only [numFrac]
      by_cases hemp : (l'.takeWhile Char.isDigit).isEmpty
      · simp [hemp]
      · simp only [hemp, Bool.false_eq_true, if_false]
        have := length_dropWhile_le' Char.isDigit l'
        simp only [List.length_cons]
        omega
    · simp [numFrac, hc]

theorem numExp_len (l : List Char) : (numExp l).2.length ≤ l.length := by
  rcases l with _ | ⟨c, l'⟩
  · simp [numExp]
  · by_cases hce : (c = 'e' || c = 'E') = true
    · rcases l' with _ | ⟨s, l''⟩
      · simp [numExp, hce]
      · by_cases hs : (s = '+' || s = '-') = true
        · simp only [numExp, hce, if_true, hs]
          by_cases hemp : (l''.takeWhile Char.isDigit).isEmpty
          · simp [hemp]
          · simp only [hemp, Bool.false_eq_true, if_false]
            have := length_dropWhile_le' Char.isDigit l''
            simp only [List.length_cons]
            omega
        · simp only [numExp, hce, if_true, hs, Bool.false_eq_true, if_false]
          by_cases hemp : ((s :: l'').takeWhile Char.isDigit).isEmpty
          · simp [hemp]
          · simp only [hemp, Bool.false_eq_true, if_false]
            have := length_dropWhile_le' Char.isDigit (s :: l'')
            simp only [List.length_cons] at this ⊢
            omega
    · simp [numExp, hce]

theorem numTail_len (i l : List Char) : (numTail i l).2.length ≤ l.length := by
  unfold numTail
  dsimp only
  have h1 := numFrac_len l
  have h2 := numExp_len (numFrac l).2
  omega

theorem parseUNum_len {l : List Char} {lex r : List Char}
    (h : parseUNum l = some (lex, r)) : r.length < l.length := by
  rcases l with _ | ⟨c, l'⟩
  · simp [parseUNum] at h
  · by_cases h0 : c = '0'
    · subst h0
      simp only [parseUNum, if_pos rfl] at h
      cases h
      have h1 := numFrac_len l'
      have h2 := numExp_len (numFrac l').2
      simp only [numTail, List.length_cons]
      omega
    · rcases hd : c.isDigit
      · simp [parseUNum, h0, hd] at h
      · simp only [parseUNum, h0, if_false, hd, if_true] at h
        cases h
        have h1 := numFrac_len (l'.dropWhile Char.isDigit)
        have h2 := numExp_len (numFrac (l'.dropWhile Char.isDigit)).2
        have h3 := length_dropWhile_le' Char.isDigit l'
        simp only [numTail, List.length_cons]
        omega

theorem parseNumber_len {l : List Char} {lex r : List Char}
    (h : parseNumber l = some (lex, r)) : r.length < l.length := by
  rcases l with _ | ⟨c, l'⟩
  · simp [parseNumber] at h
  · by_cases hm : c = '-'
    · subst hm
      simp only [parseNumber, if_pos rfl] at h
      rcases hu : parseUNum l' with _ | ⟨ulex, ur⟩ <;> rw [hu] at h
      · simp at h
      · simp at h
        obtain ⟨-, h2⟩ := h
        subst h2
        have := parseUNum_len hu
        simp only [List.length_cons]
        omega
    · simp only [parseNumber, hm, if_false] at h
      exact parseUNum_len h

theorem dropJWs_len (l : List Char) : (dropJWs l).length ≤ l.length :=
  length_dropWhile_le' isJws l

set_option maxHeartbeats 3200000 in
theorem pLen (f : Nat) :
    (∀ {l : List Char} {v : Json} {r : List Char}, pV f l = some (v, r) →
      r.length < l.length) ∧
    (∀ {l : List Char} {xs : List Json} {r : List Char}, pEStart f l = some (xs, r) →
      r.length < l.length) ∧
    (∀ {l : List Char} {xs : List Json} {r : List Char}, pERest f l = some (xs, r) →
      r.length < l.length) ∧
    (∀ {l : List Char} {kv : String × Json} {r : List Char}, pMem f l = some (kv, r) →
      r.length + 4 ≤ l.length) ∧
    (∀ {l : List Char} {kvs : List (String × Json)} {r : List Char},
      pMStart f l = some (kvs, r) → r.length < l.length) ∧
    (∀ {l : List Char} {kvs : List (String × Json)} {r : List Char},
      pMRest f l = some (kvs, r) → r.length < l.length) := by
  induction f with
  | zero =>
    refine ⟨?_, ?_, ?_, ?_, ?_, ?_⟩ <;> (intro l a r h; exact absurd h (by simp [pV, pEStart, pERest, pMem, pMStart, pMRest]))
  | succ f ih =>
    obtain ⟨ihV, ihES, ihER, ihM, ihMS, ihMR⟩ := ih
    refine ⟨?_, ?_, ?_, ?_, ?_, ?_⟩
    · -- pV
      intro l v r h
      rcases hdl : dropJWs l with _ | ⟨c, rest⟩
      · simp [pV, hdl] at h
      · have hlen : rest.length + 1 ≤ l.length := by
          have h1 := dropJWs_len l
          rw [hdl] at h1
          simpa using h1
        simp only [pV, hdl] at h
        split_ifs at h with h1 h2 h3 h4 h5 h6 h7 h8 h9
        · obtain ⟨p, hp, hpe⟩ := Option.map_eq_some'.mp h
          have := ihMS hp
          cases hpe
          omega
        · obtain ⟨p, hp, hpe⟩ := Option.map_eq_some'.mp h
          have := ihES hp
          cases hpe
          omega
        · obtain ⟨p, hp, hpe⟩ := Option.map_eq_some'.mp h
          have := parseStrBody_len hp
          cases hpe
          omega
        · obtain ⟨p, hp, hpe⟩ := Option.map_eq_some'.mp h
          have := litP_len _ _ _ hp
          cases hpe
          simp at this
          omega
        · obtain ⟨p, hp, hpe⟩ := Option.map_eq_some'.mp h
          have := litP_len _ _ _ hp
          cases hpe
          simp at this
          omega
        · obtain ⟨p, hp, hpe⟩ := Option.map_eq_some'.mp h
          have := litP_len _ _ _ hp
          cases hpe
          simp at this
          omega
        · obtain ⟨p, hp, hpe⟩ := Option.map_eq_some'.mp h
          have := litP_len _ _ _ hp
          cases hpe
          simp at this
          omega
        · obtain ⟨p, hp, hpe⟩ := Option.map_eq_some'.mp h
          have := litP_len _ _ _ hp
          cases hpe
          simp at this
          omega
        · rcases hnum : parseNumber (c :: rest) with _ | p <;> rw [hnum] at h <;> dsimp only at h
          · obtain ⟨p, hp, hpe⟩ := Option.map_eq_some'.mp h
            have := litP_len _ _ _ hp
            cases hpe
            simp at this
            omega
          · simp only [Option.some.injEq] at h
            have hl := parseNumber_len hnum
            cases h
            simp only [List.length_cons] at hl
            omega
        · rcases hnum : parseNumber (c :: rest) with _ | p <;> rw [hnum] at h <;> dsimp only at h
          · exact absurd h (by simp)
          · simp only [Option.some.injEq] at h
            have hl := parseNumber_len hnum
            cases h
            simp only [List.length_cons] at hl
            omega
    · -- pEStart
      intro l xs r h
      rcases hdl : dropJWs l with _ | ⟨c, rest⟩
      · simp [pEStart, hdl, pV_nil] at h
      · have hlen : rest.length + 1 ≤ l.length := by
          have h1 := dropJWs_len l
          rw [hdl] at h1
          simpa using h1
        by_cases hc : c = ']'
        · subst hc
          simp only [pEStart, hdl, Option.some.injEq] at h
          cases h
          omega
        · simp only [pEStart, hdl] at h
          rcases hpv : pV f (c :: rest) with _ | ⟨v, r0⟩ <;> simp [hc, hpv] at h
          have hv := ihV hpv
          obtain ⟨a, hp, -⟩ := h
          have := ihER hp
          simp only [List.length_cons] at hv
          omega
    · -- pERest
      intro l xs r h
      rcases hdl : dropJWs l with _ | ⟨c, rest⟩
      · simp [pERest, hdl] at h
      · have hlen : rest.length + 1 ≤ l.length := by
          have h1 := dropJWs_len l
          rw [hdl] at h1
          simpa using h1
        by_cases hc : c = ']'
        · subst hc
          simp only [pERest, hdl, Option.some.injEq] at h
          cases h
          omega
        · by_cases hc2 : c = ','
          · subst hc2
            simp only [pERest, hdl] at h
            rcases hpv : pV f rest with _ | ⟨v, r0⟩ <;> simp [hpv] at h
            have hv := ihV hpv
            obtain ⟨a, hp, -⟩ := h
            have := ihER hp
            omega
          · simp [pERest, hdl, hc, hc2] at h
    · -- pMem
      intro l kv r h
      rcases hdl : dropJWs l with _ | ⟨c, rest⟩
      · simp [pMem, hdl] at h
      · have hlen : rest.length + 1 ≤ l.length := by
          have h1 := dropJWs_len l
          rw [hdl] at h1
          simpa using h1
        by_cases hc : c = '"'
        · subst hc
          simp only [pMem, hdl] at h
          rcases hsb : parseStrBody rest with _ | ⟨k, r2⟩ <;> rw [hsb] at h
          · simp at h
          · dsimp only at h
            have hk := parseStrBody_len hsb
            rcases hd2 : dropJWs r2 with _ | ⟨c2, r3⟩ <;> rw [hd2] at h
            · simp at h
            · have hlen2 : r3.length + 1 ≤ r2.length := by
                have h2 := dropJWs_len r2
                rw [hd2] at h2
                simpa using h2
              by_cases hc2 : c2 = ':'
              · subst hc2
                rcases hpv : pV f r3 with _ | ⟨v, r4⟩ <;> simp [hpv] at h
                have hv := ihV hpv
                obtain ⟨-, rfl⟩ := h
                omega
              · simp [hc2] at h
        · simp [pMem, hdl, hc] at h
    · -- pMStart
      intro l kvs r h
      rcases hdl : dropJWs l with _ | ⟨c, rest⟩
      · simp only [pMStart, hdl] at h
        rcases hm : pMem f l with _ | ⟨kv, r0⟩ <;> rw [hm] at h
        · simp at h
        · dsimp only at h
          have h4 := ihM hm
          obtain ⟨p, hp, hpe⟩ := Option.map_eq_some'.mp h
          have := ihMR hp
          cases hpe
          omega
      · have hlen : rest.length + 1 ≤ l.length := by
          have h1 := dropJWs_len l
          rw [hdl] at h1
          simpa using h1
        by_cases hc : c = '}'
        · subst hc
          simp only [pMStart, hdl, Option.some.injEq] at h
          cases h
          omega
        · simp only [pMStart, hdl] at h
          rcases hm : pMem f l with _ | ⟨kv, r0⟩ <;> simp [hc, hm] at h
          have h4 := ihM hm
          obtain ⟨a, hp, -⟩ := h
          have := ihMR hp
          omega
    · -- pMRest
      intro l kvs r h
      rcases hdl : dropJWs l with _ | ⟨c, rest⟩
      · simp [pMRest, hdl] at h
      · have hlen : rest.length + 1 ≤ l.length := by
          have h1 := dropJWs_len l
          rw [hdl] at h1
          simpa using h1
        by_cases hc : c = '}'
        · subst hc
          simp only [pMRest, hdl, Option.some.injEq] at h
          cases h
          omega
        · by_cases hc2 : c = ','
          · subst hc2
            simp only [pMRest, hdl] at h
            rcases hm : pMem f rest with _ | ⟨kv, r0⟩ <;> simp [hm] at h
            have h4 := ihM hm
            obtain ⟨a, hp, -⟩ := h
            have := ihMR hp
            omega
          · simp [pMRest, hdl, hc, hc2] at h

theorem dropJWs_append_nil {l : List Char} (e : List Char) (hdl : dropJWs l = []) :
    dropJWs (l ++ e) = dropJWs e := by
  unfold dropJWs at *
  rw [List.dropWhile_append, hdl]
  simp

theorem dropJWs_append_cons {l : List Char} (e : List Char) {c : Char} {rest : List Char}
    (hdl : dropJWs l = c :: rest) : dropJWs (l ++ e) = c :: (rest ++ e) := by
  unfold dropJWs at *
  rw [List.dropWhile_append, hdl]
  simp

theorem pws_tail_disj {e : List Char} (he : ∀ c ∈ e, isPws c = true) :
    dropJWs e = [] ∨ ∃ c r', dropJWs e = c :: r' ∧ isPws c = true ∧ isJws c = false := by
  rcases hde : dropJWs e with _ | ⟨c, r'⟩
  · exact Or.inl rfl
  · refine Or.inr ⟨c, r', rfl, ?_, ?_⟩
    · have hmem : c ∈ List.dropWhile isJws e := by
        have : c ∈ dropJWs e := by rw [hde]; exact List.mem_cons_self c r'
        exact this
      exact he c (dropWhile_subset' c hmem)
    · exact dropWhile_head_false hde


/-- When the whitespace-skipped input is exhausted, appending trailing
Python whitespace leaves every parser component failing. -/
theorem pApp_nil_case {e : List Char} (he : ∀ c ∈ e, isPws c = true) (f : Nat)
    {l : List Char} (hdl : dropJWs l = []) :
    pV f (l ++ e) = (pV f l).map (fun p => (p.1, p.2 ++ e)) ∧
    pEStart f (l ++ e) = (pEStart f l).map (fun p => (p.1, p.2 ++ e)) ∧
    pERest f (l ++ e) = (pERest f l).map (fun p => (p.1, p.2 ++ e)) ∧
    pMem f (l ++ e) = (pMem f l).map (fun p => (p.1, p.2 ++ e)) ∧
    pMStart f (l ++ e) = (pMStart f l).map (fun p => (p.1, p.2 ++ e)) ∧
    pMRest f (l ++ e) = (pMRest f l).map (fun p => (p.1, p.2 ++ e)) := by
  have hd' : dropJWs (l ++ e) = [] ∨
      ∃ c r', dropJWs (l ++ e) = c :: r' ∧ isPws c = true ∧ isJws c = false := by
    rw [dropJWs_append_nil e hdl]
    exact pws_tail_disj he
  have hL := stuckAll f (l ++ e) hd'
  have hR := stuckAll f l (Or.inl hdl)
  exact ⟨by rw [hL.1, hR.1]; rfl,
         by rw [hL.2.1, hR.2.1]; rfl,
         by rw [hL.2.2.1, hR.2.2.1]; rfl,
         by rw [hL.2.2.2.1, hR.2.2.2.1]; rfl,
         by rw [hL.2.2.2.2.1, hR.2.2.2.2.1]; rfl,
         by rw [hL.2.2.2.2.2, hR.2.2.2.2.2]; rfl⟩

set_option maxHeartbeats 3200000 in
/-- Appending all-Python-whitespace trailing text to the input shifts the
unconsumed rest of every parser component and changes nothing else: in
particular success/failure is preserved in both directions. -/
theorem pApp {e : List Char} (he : ∀ c ∈ e, isPws c = true) (f : Nat) :
    (∀ l, pV f (l ++ e) = (pV f l).map (fun p => (p.1, p.2 ++ e))) ∧
    (∀ l, pEStart f (l ++ e) = (pEStart f l).map (fun p => (p.1, p.2 ++ e))) ∧
    (∀ l, pERest f (l ++ e) = (pERest f l).map (fun p => (p.1, p.2 ++ e))) ∧
    (∀ l, pMem f (l ++ e) = (pMem f l).map (fun p => (p.1, p.2 ++ e))) ∧
    (∀ l, pMStart f (l ++ e) = (pMStart f l).map (fun p => (p.1, p.2 ++ e))) ∧
    (∀ l, pMRest f (l ++ e) = (pMRest f l).map (fun p => (p.1, p.2 ++ e))) := by
  induction f with
  | zero => exact ⟨fun l => rfl, fun l => rfl, fun l => rfl, fun l => rfl,
      fun l => rfl, fun l => rfl⟩
  | succ f ih =>
    obtain ⟨ihV, ihES, ihER, ihM, ihMS, ihMR⟩ := ih
    refine ⟨?_, ?_, ?_, ?_, ?_, ?_⟩
    · -- pV
      intro l
      rcases hdl : dropJWs l with _ | ⟨c, rest⟩
      · exact (pApp_nil_case he _ hdl).1
      · have hB := dropJWs_append_cons e hdl
        simp only [pV, hdl, hB]
        by_cases h1 : c = '{'
        · simp only [if_pos h1]
          rw [ihMS rest]
          cases pMStart f rest <;> rfl
        · simp only [if_neg h1]
          by_cases h2 : c = '['
          · simp only [if_pos h2]
            rw [ihES rest]
            cases pEStart f rest <;> rfl
          · simp only [if_neg h2]
            by_cases h3 : c = '"'
            · simp only [if_pos h3]
              rw [parseStrBody_append he rest]
              cases parseStrBody rest <;> rfl
            · simp only [if_neg h3]
              by_cases h4 : c = 't'
              · simp only [if_pos h4]
                rw [litP_append he ['r', 'u', 'e'] (by decide) rest]
                cases litP ['r', 'u', 'e'] rest <;> rfl
              · simp only [if_neg h4]
                by_cases h5 : c = 'f'
                · simp only [if_pos h5]
                  rw [litP_append he ['a', 'l', 's', 'e'] (by decide) rest]
                  cases litP ['a', 'l', 's', 'e'] rest <;> rfl
                · simp only [if_neg h5]
                  by_cases h6 : c = 'n'
                  · simp only [if_pos h6]
                    rw [litP_append he ['u', 'l', 'l'] (by decide) rest]
                    cases litP ['u', 'l', 'l'] rest <;> rfl
                  · simp only [if_neg h6]
                    by_cases h7 : c = 'N'
                    · simp only [if_pos h7]
                      rw [litP_append he ['a', 'N'] (by decide) rest]
                      cases litP ['a', 'N'] rest <;> rfl
                    · simp only [if_neg h7]
                      by_cases h8 : c = 'I'
                      · simp only [if_pos h8]
                        rw [litP_append he ['n', 'f', 'i', 'n', 'i', 't', 'y'] (by decide) rest]
                        cases litP ['n', 'f', 'i', 'n', 'i', 't', 'y'] rest <;> rfl
                      · simp only [if_neg h8]
                        by_cases h9 : (c.isDigit || decide (c = '-')) = true
                        · simp only [if_pos h9]
                          rw [← List.cons_append, parseNumber_append he (c :: rest)]
                          cases hn : parseNumber (c :: rest) with
                          | none =>
                            dsimp only [Option.map]
                            by_cases h10 : c = '-'
                            · simp only [if_pos h10]
                              rw [litP_append he ['I', 'n', 'f', 'i', 'n', 'i', 't', 'y']
                                (by decide) rest]
                              cases litP ['I', 'n', 'f', 'i', 'n', 'i', 't', 'y'] rest <;> rfl
                            · simp only [if_neg h10]
                          | some p => rfl
                        · simp only [if_neg h9]
                          rfl
    · -- pEStart
      intro l
      rcases hdl : dropJWs l with _ | ⟨c, rest⟩
      · exact (pApp_nil_case he _ hdl).2.1
      · have hB := dropJWs_append_cons e hdl
        simp only [pEStart, hdl, hB]
        by_cases hc : c = ']'
        · simp only [if_pos hc]
          rfl
        · simp only [if_neg hc]
          rw [← List.cons_append, ihV (c :: rest)]
          cases hpv : pV f (c :: rest) with
          | none => rfl
          | some p =>
            obtain ⟨v, r0⟩ := p
            simp only [Option.map_some', ihER r0]
            cases pERest f r0 <;> rfl
    · -- pERest
      intro l
      rcases hdl : dropJWs l with _ | ⟨c, rest⟩
      · exact (pApp_nil_case he _ hdl).2.2.1
      · have hB := dropJWs_append_cons e hdl
        simp only [pERest, hdl, hB]
        by_cases hc : c = ']'
        · simp only [if_pos hc]
          rfl
        · simp only [if_neg hc]
          by_cases hc2 : c = ','
          · simp only [if_pos hc2]
            rw [ihV rest]
            cases hpv : pV f rest with
            | none => rfl
            | some p =>
              obtain ⟨v, r2⟩ := p
              simp only [Option.map_some', ihER r2]
              cases pERest f r2 <;> rfl
          · simp only [if_neg hc2]
            rfl
    · -- pMem
      intro l
      rcases hdl : dropJWs l with _ | ⟨c, rest⟩
      · exact (pApp_nil_case he _ hdl).2.2.2.1
      · have hB := dropJWs_append_cons e hdl
        simp only [pMem, hdl, hB]
        by_cases hc : c = '"'
        · simp only [if_pos hc]
          rw [parseStrBody_append he rest]
          cases hsb : parseStrBody rest with
          | none => rfl
          | some p =>
            obtain ⟨k, r2⟩ := p
            simp only [Option.map_some']
            rcases hd2 : dropJWs r2 with _ | ⟨c2, r3⟩
            · rw [dropJWs_append_nil e hd2]
              rcases pws_tail_disj he with he0 | ⟨d, r', hd, hpw, hjw⟩
              · rw [he0]
                rfl
              · rw [hd]
                have hdc : ¬(d = ':') := pws_ne hpw (by decide) (by decide)
                simp only [if_neg hdc]
                rfl
            · rw [dropJWs_append_cons e hd2]
              by_cases hc2 : c2 = ':'
              · simp only [if_pos hc2]
                rw [ihV r3]
                cases hpv : pV f r3 with
                | none => rfl
                | some q =>
                  obtain ⟨v, r4⟩ := q
                  rfl
              · simp only [if_neg hc2]
                rfl
        · simp only [if_neg hc]
          rfl
    · -- pMStart
      intro l
      rcases hdl : dropJWs l with _ | ⟨c, rest⟩
      · exact (pApp_nil_case he _ hdl).2.2.2.2.1
      · have hB := dropJWs_append_cons e hdl
        simp only [pMStart, hdl, hB]
        by_cases hc : c = '}'
        · simp only [if_pos hc]
          rfl
        · simp only [if_neg hc]
          rw [ihM l]
          cases hm : pMem f l with
          | none => rfl
          | some p =>
            obtain ⟨kv, r0⟩ := p
            simp only [Option.map_some', ihMR r0]
            cases pMRest f r0 <;> rfl
    · -- pMRest
      intro l
      rcases hdl : dropJWs l with _ | ⟨c, rest⟩
      · exact (pApp_nil_case he _ hdl).2.2.2.2.2
      · have hB := dropJWs_append_cons e hdl
        simp only [pMRest, hdl, hB]
        by_cases hc : c = '}'
        · simp only [if_pos hc]
          rfl
        · simp only [if_neg hc]
          by_cases hc2 : c = ','
          · simp only [if_pos hc2]
            rw [ihM rest]
            cases hm : pMem f rest with
            | none => rfl
            | some p =>
              obtain ⟨kv, r2⟩ := p
              simp only [Option.map_some', ihMR r2]
              cases pMRest f r2 <;> rfl
          · simp only [if_neg hc2]
            rfl

set_option maxHeartbeats 3200000 in
/-- One extra unit of fuel changes nothing once the fuel dominates twice the
input length (with the per-component offsets). -/
theorem pStep (f : Nat) :
    (∀ l : List Char, 2 * l.length + 1 ≤ f → pV f l = pV (f + 1) l) ∧
    (∀ l : List Char, 2 * l.length + 2 ≤ f → pEStart f l = pEStart (f + 1) l) ∧
    (∀ l : List Char, 2 * l.length + 2 ≤ f → pERest f l = pERest (f + 1) l) ∧
    (∀ l : List Char, 2 * l.length + 1 ≤ f → pMem f l = pMem (f + 1) l) ∧
    (∀ l : List Char, 2 * l.length + 2 ≤ f → pMStart f l = pMStart (f + 1) l) ∧
    (∀ l : List Char, 2 * l.length + 2 ≤ f → pMRest f l = pMRest (f + 1) l) := by
  induction f with
  | zero =>
    refine ⟨?_, ?_, ?_, ?_, ?_, ?_⟩ <;> (intro l h; exact absurd h (by omega))
  | succ f ih =>
    obtain ⟨ihV, ihES, ihER, ihM, ihMS, ihMR⟩ := ih
    refine ⟨?_, ?_, ?_, ?_, ?_, ?_⟩
    · -- pV
      intro l hb
      rcases hdl : dropJWs l with _ | ⟨c, rest⟩
      · rw [(stuckAll (f + 1) l (Or.inl hdl)).1, (stuckAll (f + 1 + 1) l (Or.inl hdl)).1]
      · have hlen : rest.length + 1 ≤ l.length := by
          have h1 := dropJWs_len l
          rw [hdl] at h1
          simpa using h1
        simp only [pV, hdl]
        rw [ihMS rest (by omega), ihES rest (by omega)]
    · -- pEStart
      intro l hb
      rcases hdl : dropJWs l with _ | ⟨c, rest⟩
      · rw [(stuckAll (f + 1) l (Or.inl hdl)).2.1, (stuckAll (f + 1 + 1) l (Or.inl hdl)).2.1]
      · have hlen : rest.length + 1 ≤ l.length := by
          have h1 := dropJWs_len l
          rw [hdl] at h1
          simpa using h1
        simp only [pEStart, hdl]
        by_cases hc : c = ']'
        · simp only [if_pos hc]
        · simp only [if_neg hc]
          rw [ihV (c :: rest) (by simp only [List.length_cons]; omega)]
          cases hpv : pV (f + 1) (c :: rest) with
          | none => rfl
          | some p =>
            obtain ⟨v, r0⟩ := p
            have hlt := (pLen (f + 1)).1 hpv
            simp only [List.length_cons] at hlt
            dsimp only
            rw [ihER r0 (by omega)]
    · -- pERest
      intro l hb
      rcases hdl : dropJWs l with _ | ⟨c, rest⟩
      · rw [(stuckAll (f + 1) l (Or.inl hdl)).2.2.1,
          (stuckAll (f + 1 + 1) l (Or.inl hdl)).2.2.1]
      · have hlen : rest.length + 1 ≤ l.length := by
          have h1 := dropJWs_len l
          rw [hdl] at h1
          simpa using h1
        simp only [pERest, hdl]
        by_cases hc : c = ']'
        · simp only [if_pos hc]
        · simp only [if_neg hc]
          by_cases hc2 : c = ','
          · simp only [if_pos hc2]
            rw [ihV rest (by omega)]
            cases hpv : pV (f + 1) rest with
            | none => rfl
            | some p =>
              obtain ⟨v, r2⟩ := p
              have hlt := (pLen (f + 1)).1 hpv
              dsimp only
              rw [ihER r2 (by omega)]
              simp only [pERest]
          · simp only [if_neg hc2]
    · -- pMem
      intro l hb
      rcases hdl : dropJWs l with _ | ⟨c, rest⟩
      · rw [(stuckAll (f + 1) l (Or.inl hdl)).2.2.2.1,
          (stuckAll (f + 1 + 1) l (Or.inl hdl)).2.2.2.1]
      · have hlen : rest.length + 1 ≤ l.length := by
          have h1 := dropJWs_len l
          rw [hdl] at h1
          simpa using h1
        simp only [pMem, hdl]
        by_cases hc : c = '"'
        · simp only [if_pos hc]
          cases hsb : parseStrBody rest with
          | none => rfl
          | some p =>
            obtain ⟨k, r2⟩ := p
            have hk := parseStrBody_len hsb
            dsimp only
            rcases hd2 : dropJWs r2 with _ | ⟨c2, r3⟩
            · rfl
            · have hlen2 : r3.length + 1 ≤ r2.length := by
                have h2 := dropJWs_len r2
                rw [hd2] at h2
                simpa using h2
              by_cases hc2 : c2 = ':'
              · simp only [if_pos hc2]
                rw [ihV r3 (by omega)]
              · simp only [if_neg hc2]
        · simp only [if_neg hc]
    · -- pMStart
      intro l hb
      rcases hdl : dropJWs l with _ | ⟨c, rest⟩
      · rw [(stuckAll (f + 1) l (Or.inl hdl)).2.2.2.2.1,
          (stuckAll (f + 1 + 1) l (Or.inl hdl)).2.2.2.2.1]
      · have hlen : rest.length + 1 ≤ l.length := by
          have h1 := dropJWs_len l
          rw [hdl] at h1
          simpa using h1
        simp only [pMStart, hdl]
        by_cases hc : c = '}'
        · simp only [if_pos hc]
        · simp only [if_neg hc]
          rw [ihM l (by omega)]
          cases hm : pMem (f + 1) l with
          | none => rfl
          | some p =>
            obtain ⟨kv, r0⟩ := p
            have hlt := (pLen (f + 1)).2.2.2.1 hm
            dsimp only
            rw [ihMR r0 (by omega)]
    · -- pMRest
      intro l hb
      rcases hdl : dropJWs l with _ | ⟨c, rest⟩
      · rw [(stuckAll (f + 1) l (Or.inl hdl)).2.2.2.2.2,
          (stuckAll (f + 1 + 1) l (Or.inl hdl)).2.2.2.2.2]
      · have hlen : rest.length + 1 ≤ l.length := by
          have h1 := dropJWs_len l
          rw [hdl] at h1
          simpa using h1
        simp only [pMRest, hdl]
        by_cases hc : c = '}'
        · simp only [if_pos hc]
        · simp only [if_neg hc]
          by_cases hc2 : c = ','
          · simp only [if_pos hc2]
            rw [ihM rest (by omega)]
            cases hm : pMem (f + 1) rest with
            | none => rfl
            | some p =>
              obtain ⟨kv, r2⟩ := p
              have hlt := (pLen (f + 1)).2.2.2.1 hm
              dsimp only
              rw [ihMR r2 (by omega)]
              simp only [pMRest]
          · simp only [if_neg hc2]

/-- Fuel beyond the per-component sufficiency bound is irrelevant. -/
theorem pGe (f g : Nat) (hfg : f ≤ g) :
    (∀ l : List Char, 2 * l.length + 1 ≤ f → pV f l = pV g l) ∧
    (∀ l : List Char, 2 * l.length + 2 ≤ f → pEStart f l = pEStart g l) ∧
    (∀ l : List Char, 2 * l.length + 2 ≤ f → pERest f l = pERest g l) ∧
    (∀ l : List Char, 2 * l.length + 1 ≤ f → pMem f l = pMem g l) ∧
    (∀ l : List Char, 2 * l.length + 2 ≤ f → pMStart f l = pMStart g l) ∧
    (∀ l : List Char, 2 * l.length + 2 ≤ f → pMRest f l = pMRest g l) := by
  induction g, hfg using Nat.le_induction with
  | base =>
    exact ⟨fun l h => rfl, fun l h => rfl, fun l h => rfl, fun l h => rfl,
      fun l h => rfl, fun l h => rfl⟩
  | succ g hg ih =>
    obtain ⟨iV, iES, iER, iM, iMS, iMR⟩ := ih
    have hs := pStep g
    exact ⟨fun l h => (iV l h).trans (hs.1 l (le_trans h hg)),
      fun l h => (iES l h).trans (hs.2.1 l (le_trans h hg)),
      fun l h => (iER l h).trans (hs.2.2.1 l (le_trans h hg)),
      fun l h => (iM l h).trans (hs.2.2.2.1 l (le_trans h hg)),
      fun l h => (iMS l h).trans (hs.2.2.2.2.1 l (le_trans h hg)),
      fun l h => (iMR l h).trans (hs.2.2.2.2.2 l (le_trans h hg))⟩

/-- Any fuel above the sufficiency bound computes the canonical result. -/
theorem pV_fuel {f : Nat} {l : List Char} (h : 2 * l.length + 1 ≤ f) :
    pV f l = pV (jsonFuel l) l := by
  rcases le_total f (jsonFuel l) with hle | hle
  · exact (pGe f (jsonFuel l) hle).1 l h
  · exact ((pGe (jsonFuel l) f hle).1 l (by unfold jsonFuel; omega)).symm

theorem dropTrail_append_all {p : Char → Bool} {w : List Char} (hw : ∀ c ∈ w, p c = true)
    (x : List Char) : dropTrail p (x ++ w) = dropTrail p x := by
  unfold dropTrail
  rw [List.reverse_append, dropWhile_append_all]
  intro c hc
  exact hw c (List.mem_reverse.mp hc)

theorem dropTrail_cons_neg {p : Char → Bool} {c : Char} (hc : p c = false) (xs : List Char) :
    dropTrail p (c :: xs) = c :: dropTrail p xs := by
  unfold dropTrail
  rw [List.reverse_cons, List.dropWhile_append]
  by_cases h : (xs.reverse.dropWhile p).isEmpty
  · simp only [h, if_true]
    rw [List.isEmpty_iff] at h
    rw [h]
    simp [List.dropWhile_cons, hc]
  · simp only [h, if_false]
    rw [List.isEmpty_iff] at h
    simp

theorem pyStrip_pad {w1 w2 : List Char} (hw1 : ∀ c ∈ w1, isPws c = true)
    (hw2 : ∀ c ∈ w2, isPws c = true) (x : List Char) :
    pyStrip (w1 ++ x ++ w2) = pyStrip x := by
  unfold pyStrip
  rw [List.append_assoc, dropWhile_append_all hw1, List.dropWhile_append]
  by_cases h : (x.dropWhile isPws).isEmpty
  · simp only [h, if_true]
    rw [List.isEmpty_iff] at h
    rw [h, dropWhile_all hw2]
  · simp only [h, if_false]
    exact dropTrail_append_all hw2 _

theorem dropWhile_dropWhile {p : Char → Bool} (l : List Char) :
    (l.dropWhile p).dropWhile p = l.dropWhile p := by
  rcases h : l.dropWhile p with _ | ⟨c, r⟩
  · rfl
  · have hc := dropWhile_head_false h
    simp [List.dropWhile_cons, hc]

theorem dropTrail_dropTrail {p : Char → Bool} (l : List Char) :
    dropTrail p (dropTrail p l) = dropTrail p l := by
  unfold dropTrail
  rw [List.reverse_reverse, dropWhile_dropWhile]

theorem dropWhile_pyStrip (l : List Char) :
    (pyStrip l).dropWhile isPws = pyStrip l := by
  unfold pyStrip
  rcases h : l.dropWhile isPws with _ | ⟨c, r⟩
  · rfl
  · have hc := dropWhile_head_false h
    rw [dropTrail_cons_neg hc]
    simp [List.dropWhile_cons, hc]

theorem dropTrail_pyStrip (l : List Char) :
    dropTrail isPws (pyStrip l) = pyStrip l := by
  unfold pyStrip
  rw [dropTrail_dropTrail]

theorem pyStrip_idem (l : List Char) : pyStrip (pyStrip l) = pyStrip l := by
  conv_lhs => rw [pyStrip]
  rw [dropWhile_pyStrip, dropTrail_pyStrip]

theorem dropTrail_decomp (p : Char → Bool) (l : List Char) :
    ∃ w, l = dropTrail p l ++ w ∧ ∀ c ∈ w, p c = true := by
  refine ⟨(l.reverse.takeWhile p).reverse, ?_, ?_⟩
  · conv_lhs => rw [← List.reverse_reverse l, ← List.takeWhile_append_dropWhile p l.reverse]
    rw [List.reverse_append]
    rfl
  · intro c hc
    exact List.mem_takeWhile_imp (List.mem_reverse.mp hc)

theorem pyStrip_length_le (l : List Char) : (pyStrip l).length ≤ l.length := by
  unfold pyStrip dropTrail
  have h1 := length_dropWhile_le' isPws l
  have h2 := length_dropWhile_le' isPws (l.dropWhile isPws).reverse
  simp only [List.length_reverse] at h2 ⊢
  omega

theorem pV_congr {f : Nat} {l1 l2 : List Char} (h : dropJWs l1 = dropJWs l2) :
    pV f l1 = pV f l2 := by
  cases f with
  | zero => rfl
  | succ f => simp only [pV, h]

theorem pV_head (f : Nat) {l : List Char} {v : Json} {r : List Char}
    (h : pV f l = some (v, r)) :
    ∃ c rest, dropJWs l = c :: rest ∧ isPws c = false ∧ c ≠ '`' := by
  cases f with
  | zero => exact absurd h (by simp [pV])
  | succ f =>
    rcases hdl : dropJWs l with _ | ⟨c, rest⟩
    · rw [(stuckAll (f + 1) l (Or.inl hdl)).1] at h
      exact absurd h (by simp)
    · have hjw : isJws c = false := dropWhile_head_false hdl
      refine ⟨c, rest, rfl, ?_, ?_⟩
      · rcases hpw : isPws c
        · rfl
        · rw [(stuckAll (f + 1) l (Or.inr ⟨c, rest, hdl, hpw, hjw⟩)).1] at h
          exact absurd h (by simp)
      · intro hceq
        subst hceq
        simp [pV, hdl] at h

theorem dropPws_eq_dropJWs {l : List Char} {c : Char} {rest : List Char}
    (hdl : dropJWs l = c :: rest) (hpw : isPws c = false) :
    l.dropWhile isPws = c :: rest := by
  have hsplit : l = l.takeWhile isJws ++ l.dropWhile isJws :=
    (List.takeWhile_append_dropWhile _ _).symm
  have hjall : ∀ d ∈ l.takeWhile isJws, isPws d = true := by
    intro d hd
    exact jws_pws (List.mem_takeWhile_imp hd)
  conv_lhs => rw [hsplit]
  rw [dropWhile_append_all hjall]
  have : l.dropWhile isJws = c :: rest := hdl
  rw [this]
  simp [List.dropWhile_cons, hpw]

/-- Stripping Python whitespace around a successfully parsed JSON text
changes neither the parse result; moreover the stripped text is nonempty
and starts with a value-start character (never a backtick). -/
theorem loads_pyStrip {s : String} {v : Json} (h : loads s = some v) :
    loads ⟨pyStrip s.data⟩ = some v ∧
    ∃ c y, pyStrip s.data = c :: y ∧ isPws c = false ∧ c ≠ '`' := by
  unfold loads at h
  rcases hp : pV (jsonFuel s.data) s.data with _ | ⟨v', r⟩
  · rw [hp] at h
    exact absurd h (by simp)
  · rw [hp] at h
    dsimp only at h
    by_cases hre : (dropJWs r).isEmpty
    · rw [if_pos hre] at h
      have hv : v' = v := by simpa using h
      obtain ⟨c, rest0, hdl, hpw, hbt⟩ := pV_head _ hp
      have h1 : s.data.dropWhile isPws = c :: rest0 := dropPws_eq_dropJWs hdl hpw
      have hps : pyStrip s.data = c :: dropTrail isPws rest0 := by
        unfold pyStrip
        rw [h1, dropTrail_cons_neg hpw]
      obtain ⟨wt, hrest, hwt⟩ := dropTrail_decomp isPws rest0
      have hjw : isJws c = false := dropWhile_head_false hdl
      have hdc : dropJWs (c :: rest0) = c :: rest0 := by
        show List.dropWhile isJws (c :: rest0) = c :: rest0
        simp [List.dropWhile_cons, hjw]
      have hp2 : pV (jsonFuel s.data) (c :: rest0) = some (v', r) :=
        (pV_congr (by rw [hdc, hdl])).trans hp
      have hsplit : c :: rest0 = (c :: dropTrail isPws rest0) ++ wt := by
        rw [List.cons_append, ← hrest]
      rw [hsplit] at hp2
      have happ := (pApp hwt (jsonFuel s.data)).1 (c :: dropTrail isPws rest0)
      have hmap := happ.symm.trans hp2
      obtain ⟨p1, hp3, heq⟩ := Option.map_eq_some'.mp hmap
      obtain ⟨v1, r1⟩ := p1
      dsimp only at heq
      rw [Prod.ext_iff] at heq
      obtain ⟨hv1, hr1⟩ := heq
      dsimp only at hv1 hr1
      have hrall : ∀ d ∈ r, isJws d = true := by
        rw [List.isEmpty_iff] at hre
        exact List.dropWhile_eq_nil_iff.mp hre
      have hr1all : (dropJWs r1).isEmpty = true := by
        rw [List.isEmpty_iff]
        apply dropWhile_all
        intro d hd
        exact hrall d (by rw [← hr1]; exact List.mem_append.mpr (Or.inl hd))
      have hbound : 2 * (c :: dropTrail isPws rest0).length + 1 ≤ jsonFuel s.data := by
        have hl1 := pyStrip_length_le s.data
        rw [hps] at hl1
        unfold jsonFuel
        simp only [List.length_cons] at hl1 ⊢
        omega
      have hp4 : pV (jsonFuel (c :: dropTrail isPws rest0)) (c :: dropTrail isPws rest0) =
          some (v1, r1) := by
        rw [← pV_fuel hbound]
        exact hp3
      constructor
      · have hloads : loads ⟨c :: dropTrail isPws rest0⟩ =
            (match pV (jsonFuel (c :: dropTrail isPws rest0)) (c :: dropTrail isPws rest0) with
             | some (v, r) => if (dropJWs r).isEmpty then some v else none
             | none => none) := rfl
        rw [hps, hloads, hp4]
        dsimp only
        rw [if_pos hr1all, hv1, hv]
      · exact ⟨c, dropTrail isPws rest0, hps, hpw, hbt⟩
    · rw [if_neg hre] at h
      exact absurd h (by simp)

theorem fenceStrip_noop {c : Char} {y : List Char} (hc : c ≠ '`') :
    fenceStrip (c :: y) = c :: y := by
  have hbe : ('`' == c) = false := beq_eq_false_iff_ne.mpr (fun hq => hc hq.symm)
  have hpre : "```".data.isPrefixOf (c :: y) = false := by
    show List.isPrefixOf ('`' :: '`' :: '`' :: []) (c :: y) = false
    simp [List.isPrefixOf, hbe]
  simp [fenceStrip, hpre]

theorem take_append_len (X g : List Char) : (X ++ g).take X.length = X := by
  induction X with
  | nil => rfl
  | cons a as ih => simp [ih]

theorem isPrefixOf_self_append (l t : List Char) : l.isPrefixOf (l ++ t) = true := by
  induction l with
  | nil => simp [List.isPrefixOf]
  | cons a as ih => simp [List.isPrefixOf, ih]

theorem isSuffixOf_ticks (x : List Char) :
    "```".data.isSuffixOf (x ++ '`' :: '`' :: '`' :: []) = true := by
  show List.isPrefixOf "```".data.reverse (x ++ '`' :: '`' :: '`' :: []).reverse = true
  rw [List.reverse_append]
  exact isPrefixOf_self_append _ _

theorem dropTrail_append_single_neg {p : Char → Bool} {b : Char} (hb : p b = false)
    (m : List Char) : dropTrail p (m ++ [b]) = m ++ [b] := by
  unfold dropTrail
  rw [List.reverse_append]
  show ((b :: m.reverse).dropWhile p).reverse = m ++ [b]
  simp [List.dropWhile_cons, hb]

theorem pyStrip_eq_self {x : List Char} {a b : Char} {m : List Char}
    (hx : x = a :: (m ++ [b])) (ha : isPws a = false) (hb : isPws b = false) :
    pyStrip x = x := by
  subst hx
  unfold pyStrip
  rw [List.dropWhile_cons]
  simp only [ha, Bool.false_eq_true, if_false]
  rw [dropTrail_cons_neg ha, dropTrail_append_single_neg hb]

set_option maxHeartbeats 1600000 in
theorem fenceStrip_fence {tag sd : List Char} (htag : ∀ c ∈ tag, isTagChar c = true)
    {c : Char} {rest0 : List Char} (h1 : sd.dropWhile isPws = c :: rest0)
    (hpw : isPws c = false) :
    fenceStrip ('`' :: '`' :: '`' :: (tag ++ '\n' :: (sd ++ '\n' :: '`' :: '`' :: '`' :: []))) =
      pyStrip sd := by
  have hpre : "```".data.isPrefixOf
      ('`' :: '`' :: '`' :: (tag ++ '\n' :: (sd ++ '\n' :: '`' :: '`' :: '`' :: []))) = true := by
    show List.isPrefixOf ('`' :: '`' :: '`' :: []) _ = true
    simp [List.isPrefixOf]
  unfold fenceStrip
  rw [if_pos hpre]
  simp only [List.drop_succ_cons, List.drop_zero, dropWhile_append_all htag,
    List.dropWhile_cons]
  have htn : isTagChar '\n' = false := by decide
  have hpn : isPws '\n' = true := by decide
  simp only [htn, Bool.false_eq_true, if_false, hpn, if_true]
  simp only [List.dropWhile_cons, hpn, if_true]
  rw [List.dropWhile_append, h1]
  simp only [List.isEmpty_cons, Bool.false_eq_true, if_false]
  have hsh : (c :: rest0) ++ ('\n' :: '`' :: '`' :: '`' :: []) =
      (c :: (rest0 ++ ['\n'])) ++ ('`' :: '`' :: '`' :: []) := by simp
  rw [hsh, if_pos (isSuffixOf_ticks _)]
  have hlen3 : ((c :: (rest0 ++ ['\n'])) ++ ('`' :: '`' :: '`' :: [])).length - 3 =
      (c :: (rest0 ++ ['\n'])).length := by simp
  rw [hlen3, take_append_len]
  obtain ⟨wt, hrest, hwt⟩ := dropTrail_decomp isPws rest0
  have hps' : pyStrip sd = c :: dropTrail isPws rest0 := by
    unfold pyStrip
    rw [h1, dropTrail_cons_neg hpw]
  have hwn : ∀ d ∈ wt ++ ['\n'], isPws d = true := by
    intro d hd
    rcases List.mem_append.mp hd with hh | hh
    · exact hwt d hh
    · simp at hh
      subst hh
      decide
  have hx : c :: (rest0 ++ ['\n']) = (c :: dropTrail isPws rest0) ++ (wt ++ ['\n']) := by
    conv_lhs => rw [hrest]
    simp
  rw [hx, dropTrail_append_all hwn, ← hps', dropTrail_pyStrip, pyStrip_idem]

theorem extract_fast {text : String} {u : List Char} {v : Json}
    (hne : ¬(text = "")) (hfs : fenceStrip (pyStrip text.data) = u)
    (hdirect : safeJsonLoads ⟨u⟩ = some v) :
    extractJsonFromText text = some v := by
  unfold extractJsonFromText
  simp only [if_neg hne, hfs, hdirect]

/-- C3: for every string that is a syntactically valid JSON text, with
arbitrary leading/trailing Python whitespace, or wrapped in a
triple-backtick fence (language tag, newline, body, newline, closing
fence) itself possibly padded with whitespace, `_extract_json_from_text`
returns exactly the value obtained by `json.loads` on the original JSON
text (the direct fast path succeeds). -/
theorem extract_roundtrip {s : String} {v : Json} {w1 w2 tag : List Char}
    (h : loads s = some v)
    (hw1 : ∀ c ∈ w1, isPws c = true) (hw2 : ∀ c ∈ w2, isPws c = true)
    (htag : ∀ c ∈ tag, isTagChar c = true) :
    extractJsonFromText ⟨w1 ++ s.data ++ w2⟩ = some v ∧
    extractJsonFromText
        ⟨w1 ++ ('`' :: '`' :: '`' ::
          (tag ++ '\n' :: (s.data ++ '\n' :: '`' :: '`' :: '`' :: []))) ++ w2⟩ = some v := by
  obtain ⟨hl, c, y, hps, hpw, hbt⟩ := loads_pyStrip h
  rw [hps] at hl
  rcases hdw : s.data.dropWhile isPws with _ | ⟨c2, rest0⟩
  · exfalso
    have hnil : pyStrip s.data = [] := by
      unfold pyStrip
      rw [hdw]
      rfl
    rw [hps] at hnil
    exact absurd hnil (by simp)
  · have hcc : c2 = c := by
      have hthis : pyStrip s.data = c2 :: dropTrail isPws rest0 := by
        unfold pyStrip
        rw [hdw, dropTrail_cons_neg (dropWhile_head_false hdw)]
      rw [hps] at hthis
      exact (List.cons_eq_cons.mp hthis.symm).1
    subst hcc
    constructor
    · -- plain whitespace padding
      apply extract_fast (u := c2 :: y)
      · intro hh
        have hdata := congrArg String.data hh
        simp at hdata
        obtain ⟨-, h2, -⟩ := hdata
        rw [h2] at hdw
        simp at hdw
      · show fenceStrip (pyStrip (w1 ++ s.data ++ w2)) = c2 :: y
        rw [pyStrip_pad hw1 hw2, hps, fenceStrip_noop hbt]
      · exact hl
    · -- fence wrapping
      apply extract_fast (u := c2 :: y)
      · intro hh
        have hdata := congrArg String.data hh
        simp at hdata
      · show fenceStrip (pyStrip (w1 ++ ('`' :: '`' :: '`' ::
            (tag ++ '\n' :: (s.data ++ '\n' :: '`' :: '`' :: '`' :: []))) ++ w2)) = c2 :: y
        rw [pyStrip_pad hw1 hw2]
        rw [pyStrip_eq_self (a := '`') (b := '`')
            (m := '`' :: '`' :: (tag ++ '\n' :: (s.data ++ '\n' :: '`' :: '`' :: [])))
            (by simp) (by decide) (by decide)]
        rw [fenceStrip_fence htag hdw hpw, hps]
      · exact hl

/-- Concrete instance of the C3 round-trip (padded and fenced forms of
`[1]`). -/
theorem extract_roundtrip_witness :
    extractJsonFromText ⟨[' '] ++ "[1]".data ++ ['\n']⟩ = some (Json.arr [Json.num "1"]) ∧
    extractJsonFromText
        ⟨[' '] ++ ('`' :: '`' :: '`' ::
          ("json".data ++ '\n' :: ("[1]".data ++ '\n' :: '`' :: '`' :: '`' :: []))) ++ ['\n']⟩ =
      some (Json.arr [Json.num "1"]) :=
  extract_roundtrip (s := "[1]") (by rfl) (by decide) (by decide) (by decide)

/-- Removing a prefix of characters of a class the marker's head avoids
cannot cut into an occurrence of the marker. -/
theorem peel_left {bad : Char → Bool} {m0 : Char} (hm : bad m0 = false) :
    ∀ (pre d u rest : List Char), pre ++ d = u ++ m0 :: rest →
      (∀ c ∈ pre, bad c = true) → ∃ u', d = u' ++ m0 :: rest ∧ u = pre ++ u' := by
  intro pre
  induction pre with
  | nil =>
    intro d u rest h hall
    rw [List.nil_append] at h
    exact ⟨u, h, by rw [List.nil_append]⟩
  | cons p ps ih =>
    intro d u rest h hall
    cases u with
    | nil =>
      rw [List.cons_append, List.nil_append] at h
      have h1 : p = m0 := (List.cons_eq_cons.mp h).1
      have := hall p (List.mem_cons_self p ps)
      rw [h1, hm] at this
      exact absurd this (by simp)
    | cons a us =>
      rw [List.cons_append, List.cons_append] at h
      obtain ⟨h1, h2⟩ := List.cons_eq_cons.mp h
      obtain ⟨u', hd, hu⟩ := ih d us rest h2 (fun c hc => hall c (List.mem_cons_of_mem p hc))
      exact ⟨u', hd, by rw [List.cons_append, ← h1, hu]⟩

/-- The right-hand mirror of `peel_left`. -/
theorem peel_right {bad : Char → Bool} {mk : Char} (hm : bad mk = false)
    (M' suf d u w : List Char) (h : d ++ suf = u ++ (M' ++ [mk]) ++ w)
    (hall : ∀ c ∈ suf, bad c = true) :
    ∃ w', d = u ++ (M' ++ [mk]) ++ w' ∧ w = w' ++ suf := by
  have hrev : suf.reverse ++ d.reverse = w.reverse ++ mk :: (M'.reverse ++ u.reverse) := by
    have hc := congrArg List.reverse h
    simp only [List.reverse_append, List.reverse_cons, List.append_assoc] at hc
    simpa using hc
  obtain ⟨u', hd, hu⟩ := peel_left hm suf.reverse d.reverse w.reverse (M'.reverse ++ u.reverse)
    hrev (by intro c hc; exact hall c (List.mem_reverse.mp hc))
  refine ⟨u'.reverse, ?_, ?_⟩
  · have hc := congrArg List.reverse hd
    simp only [List.reverse_reverse, List.reverse_append, List.reverse_cons,
      List.append_assoc] at hc
    simpa [List.append_assoc] using hc
  · have hc := congrArg List.reverse hu
    simp only [List.reverse_reverse, List.reverse_append] at hc
    exact hc

/-- A one-sided trim (`dropWhile` on the left, `dropTrail` on the right) by
a class avoiding both marker ends preserves every marker occurrence. -/
theorem trim_keeps_marker {bad : Char → Bool} (h1 : bad '<' = false) (h2 : bad '>' = false)
    {l u w : List Char} (h : l = u ++ openTag ++ w) :
    ∃ u' w', dropTrail bad (l.dropWhile bad) = u' ++ openTag ++ w' := by
  have hM : openTag = '<' :: ("think".data ++ ['>']) := rfl
  have hsplit : l.takeWhile bad ++ l.dropWhile bad = u ++ '<' :: ("think".data ++ '>' :: w) := by
    rw [List.takeWhile_append_dropWhile, h, hM]
    simp [List.append_assoc]
  obtain ⟨u1, hdw, -⟩ := peel_left h1 _ _ _ _ hsplit
    (fun c hc => List.mem_takeWhile_imp hc)
  obtain ⟨wt, hrest, hwt⟩ := dropTrail_decomp bad (l.dropWhile bad)
  have heq : dropTrail bad (l.dropWhile bad) ++ wt =
      u1 ++ (('<' :: "think".data) ++ ['>']) ++ w := by
    rw [← hrest, hdw]
    simp [List.cons_append, List.append_assoc]
  obtain ⟨w', hd, -⟩ := peel_right h2 _ _ _ _ _ heq hwt
  refine ⟨u1, w', ?_⟩
  rw [hd, hM]
  simp [List.cons_append, List.append_assoc]

theorem pyStrip_keeps_marker {l u w : List Char} (h : l = u ++ openTag ++ w) :
    ∃ u' w', pyStrip l = u' ++ openTag ++ w' :=
  trim_keeps_marker (by decide) (by decide) h

theorem ciMatch_chars : ∀ (pat l r : List Char), ciMatch pat l = some r →
    ∃ pre, l = pre ++ r ∧ ∀ c ∈ pre, ∃ p ∈ pat, lowerC c = lowerC p := by
  intro pat
  induction pat with
  | nil =>
    intro l r h
    simp [ciMatch] at h
    exact ⟨[], by rw [h, List.nil_append], by simp⟩
  | cons p ps ih =>
    intro l r h
    cases l with
    | nil => simp [ciMatch] at h
    | cons c cl =>
      simp only [ciMatch] at h
      by_cases hc : lowerC c = lowerC p
      · rw [if_pos hc] at h
        obtain ⟨pre, hpre, hall⟩ := ih cl r h
        refine ⟨c :: pre, by rw [List.cons_append, hpre], ?_⟩
        intro d hd
        rcases List.mem_cons.mp hd with hh | hh
        · subst hh
          exact ⟨p, List.mem_cons_self _ _, hc⟩
        · obtain ⟨q, hq, hlq⟩ := hall d hh
          exact ⟨q, List.mem_cons_of_mem _ hq, hlq⟩
      · rw [if_neg hc] at h
        exact absurd h (by simp)

/-- The characters the leading-label regex can consume: whitespace, the
colon, and letters case-folding into `final`/`answer`. -/
def labelChar (c : Char) : Bool :=
  isPws c || c = ':' || lowerC c = 'f' || lowerC c = 'i' || lowerC c = 'n' ||
    lowerC c = 'a' || lowerC c = 'l' || lowerC c = 's' || lowerC c = 'w' ||
    lowerC c = 'e' || lowerC c = 'r'

theorem labelChar_final {d : Char}
    (h : ∃ q ∈ ("final".data : List Char), lowerC d = lowerC q) : labelChar d = true := by
  obtain ⟨q, hq, hlq⟩ := h
  have hlist : ("final".data : List Char) = ['f', 'i', 'n', 'a', 'l'] := rfl
  rw [hlist] at hq
  simp only [List.mem_cons, List.not_mem_nil, or_false] at hq
  rcases hq with rfl | rfl | rfl | rfl | rfl <;> simp +decide [labelChar, hlq]

theorem labelChar_answer {d : Char}
    (h : ∃ q ∈ ("answer".data : List Char), lowerC d = lowerC q) : labelChar d = true := by
  obtain ⟨q, hq, hlq⟩ := h
  have hlist : ("answer".data : List Char) = ['a', 'n', 's', 'w', 'e', 'r'] := rfl
  rw [hlist] at hq
  simp only [List.mem_cons, List.not_mem_nil, or_false] at hq
  rcases hq with rfl | rfl | rfl | rfl | rfl | rfl <;> simp +decide [labelChar, hlq]

theorem matchLabel_chars {t r : List Char} (h : matchLabel t = some r) :
    ∃ pre, t = pre ++ r ∧ ∀ c ∈ pre, labelChar c = true := by
  unfold matchLabel at h
  dsimp only at h
  have htake : ∀ c ∈ t.takeWhile isPws, labelChar c = true := by
    intro c hc
    have hm := List.mem_takeWhile_imp hc
    simp [labelChar, hm]
  have hsplit : t = t.takeWhile isPws ++ t.dropWhile isPws :=
    (List.takeWhile_append_dropWhile _ _).symm
  have hfin : ∀ (pat : List Char),
      (∀ d : Char, (∃ q ∈ pat, lowerC d = lowerC q) → labelChar d = true) →
      ∀ (r1 : List Char), ciMatch pat (t.dropWhile isPws) = some r1 →
      (match r1.dropWhile isPws with
       | [] => none
       | c :: r2 => if c = ':' then some (r2.dropWhile isPws) else none) = some r →
      ∃ pre, t = pre ++ r ∧ ∀ c ∈ pre, labelChar c = true := by
    intro pat hpat r1 hcm haw
    obtain ⟨preW, hpreW, hallW⟩ := ciMatch_chars pat _ r1 hcm
    rcases hdw1 : r1.dropWhile isPws with _ | ⟨c1, r2⟩
    · rw [hdw1] at haw
      exact absurd haw (by simp)
    · rw [hdw1] at haw
      dsimp only at haw
      by_cases hc1 : c1 = ':'
      · rw [if_pos hc1] at haw
        have hr : r2.dropWhile isPws = r := by simpa using haw
        have hsplit1 : r1 = r1.takeWhile isPws ++ (c1 :: r2) := by
          conv_lhs => rw [← List.takeWhile_append_dropWhile isPws r1, hdw1]
        have hsplit2 : r2 = r2.takeWhile isPws ++ r := by
          conv_lhs => rw [← List.takeWhile_append_dropWhile isPws r2, hr]
        refine ⟨t.takeWhile isPws ++ (preW ++ (r1.takeWhile isPws ++ (c1 :: r2.takeWhile isPws))),
          ?_, ?_⟩
        · conv_lhs => rw [hsplit, hpreW, hsplit1]
          conv_lhs => rw [hsplit2]
          simp [List.append_assoc]
        · intro d hd
          simp only [List.mem_append, List.mem_cons] at hd
          rcases hd with hd | hd | hd | hd | hd
          · exact htake d hd
          · exact hpat d (hallW d hd)
          · have hm := List.mem_takeWhile_imp hd
            simp [labelChar, hm]
          · subst hd
            simp [labelChar, hc1]
          · have hm := List.mem_takeWhile_imp hd
            simp [labelChar, hm]
      · rw [if_neg hc1] at haw
        exact absurd haw (by simp)
  rcases hcf : ciMatch "final".data (t.dropWhile isPws) with _ | r1
  · rw [hcf] at h
    rcases hca : ciMatch "answer".data (t.dropWhile isPws) with _ | r1
    · rw [hca] at h
      exact absurd h (by simp)
    · rw [hca] at h
      exact hfin "answer".data (fun d hq => labelChar_answer hq) r1 hca h
  · rw [hcf] at h
    exact hfin "final".data (fun d hq => labelChar_final hq) r1 hcf h

/-- `_clean_answer` can only trim scaffolding at the two ends, and none of
the characters it removes can begin or end an inline `<think>` marker:
every occurrence of the marker survives into the cleaned answer. -/
theorem cleanAnswerL_keeps_marker {l u w : List Char} (h : l = u ++ openTag ++ w) :
    ∃ u' w', cleanAnswerL l = u' ++ openTag ++ w' := by
  obtain ⟨u1, w1, h1⟩ := pyStrip_keeps_marker h
  have hM : openTag = '<' :: ("think".data ++ ['>']) := rfl
  have ht1 : ∃ u2 w2, (match matchLabel (pyStrip l) with
      | some r => r
      | none => pyStrip l) = u2 ++ openTag ++ w2 := by
    rcases hml : matchLabel (pyStrip l) with _ | r
    · exact ⟨u1, w1, h1⟩
    · obtain ⟨pre, hpre, hall⟩ := matchLabel_chars hml
      have heq : pre ++ r = u1 ++ '<' :: ("think".data ++ '>' :: w1) := by
        rw [← hpre, h1, hM]
        simp [List.append_assoc]
      obtain ⟨u2, hr2, -⟩ := @peel_left labelChar '<' (by decide) _ _ _ _ heq hall
      refine ⟨u2, w1, ?_⟩
      show r = u2 ++ openTag ++ w1
      rw [hr2, hM]
      simp [List.append_assoc]
  obtain ⟨u2, w2, h2⟩ := ht1
  simp only [cleanAnswerL, h2]
  by_cases hfc : ("```".data.isPrefixOf (u2 ++ openTag ++ w2) &&
      "```".data.isSuffixOf (u2 ++ openTag ++ w2)) = true
  · rw [if_pos hfc]
    obtain ⟨u3, w3, h3⟩ :=
      @trim_keeps_marker (fun c => c = '`') (by decide) (by decide) _ _ _
        (rfl : u2 ++ openTag ++ w2 = u2 ++ openTag ++ w2)
    obtain ⟨u4, w4, h4⟩ := pyStrip_keeps_marker h3
    exact pyStrip_keeps_marker h4
  · rw [if_neg hfc]
    exact pyStrip_keeps_marker (rfl : u2 ++ openTag ++ w2 = u2 ++ openTag ++ w2)

/-- C4 counterexample: a message whose dedicated reasoning field is the
non-empty string `" "` (blank after trimming) with inline markers in its
content.  The splitter ignores the dedicated field, parses and removes the
inline markers, and returns the enclosed text as thinking — not the trimmed
dedicated field with markers left untouched as the spec prescribes. -/
theorem split_precedence_counterexample :
    splitThinkingAndAnswer (Json.obj [("reasoning", Json.str " "),
      ("content", Json.str "<think>plan</think>result")]) = ("plan", "result") := by rfl

/-- C4 (amended): when the dedicated reasoning field (primary `reasoning`,
or the `thoughts` alias when the primary is falsy) is a string that is
non-blank after trimming, the splitter returns the trimmed field as
thinking and `_clean_answer(content)` as answer; `_clean_answer` trims only
end scaffolding, so every inline `<think>` marker occurrence in the content
survives, unparsed, in the answer. -/
theorem split_precedence_amended {kvs : List (String × Json)} {rs cs : String}
    (hr : pyGet kvs "reasoning" = Json.str rs ∨
      (jsonTruthy (pyGet kvs "reasoning") = false ∧ pyGet kvs "thoughts" = Json.str rs))
    (hrs : ¬(pyStrip rs.data = []))
    (hc : pyGet kvs "content" = Json.str cs) :
    splitThinkingAndAnswer (Json.obj kvs) = (⟨pyStrip rs.data⟩, cleanAnswer cs) ∧
    ∀ u w, cs.data = u ++ openTag ++ w →
      ∃ u' w', (cleanAnswer cs).data = u' ++ openTag ++ w' := by
  have hrne : rs ≠ "" := by
    intro hh
    subst hh
    exact hrs rfl
  constructor
  · have htr : jsonTruthy (Json.str rs) = true := by simp [jsonTruthy, hrne]
    have hreas : pyOr (pyOr (pyGet kvs "reasoning") (pyGet kvs "thoughts"))
        (Json.str "") = Json.str rs := by
      rcases hr with hr | ⟨hf, ht⟩
      · rw [hr]
        simp [pyOr, htr]
      · rw [ht]
        simp [pyOr, hf, htr]
    unfold splitThinkingAndAnswer
    dsimp only
    rw [hreas, hc]
    dsimp only
    rw [if_pos hrs]
    by_cases hcs : cs = ""
    · subst hcs
      have hco : pyOr (Json.str "") (Json.str "") = Json.str "" := by simp [pyOr]
      rw [hco]
      show (_, cleanAnswerVal (Json.str "")) = (_, cleanAnswer "")
      simp [cleanAnswerVal, jsonTruthy]
      decide
    · have hct : jsonTruthy (Json.str cs) = true := by simp [jsonTruthy, hcs]
      have hco : pyOr (Json.str cs) (Json.str "") = Json.str cs := by simp [pyOr, hct]
      rw [hco]
      show (_, cleanAnswerVal (Json.str cs)) = (_, cleanAnswer cs)
      simp [cleanAnswerVal, hct, pyStr]
  · intro u w hcw
    have hca : (cleanAnswer cs).data = cleanAnswerL cs.data := rfl
    rw [hca]
    exact cleanAnswerL_keeps_marker hcw

/-- Concrete instance of the amended C4 precedence rule. -/
theorem split_precedence_amended_witness :
    splitThinkingAndAnswer (Json.obj [("reasoning", Json.str " why "),
      ("content", Json.str "a<think>b</think>c")]) = ("why", "a<think>b</think>c") :=
  (@split_precedence_amended
    [("reasoning", Json.str " why "), ("content", Json.str "a<think>b</think>c")]
    " why " "a<think>b</think>c" (Or.inl rfl) (by decide) rfl).1

/-!
## The orchestrating `run` method

The network is modelled by an oracle (`Net`) holding the responses the two
HTTP endpoints would produce; issued requests are collected in a log so
that "no outbound request" is a provable property.  The PNG conversion of
an input image tensor is abstracted to its resulting data URL.  Error
messages carried by raised exceptions are abstracted to their kind and
status code.
-/

/-- Python `str.rstrip("/")`. -/
def rstripSlash (s : String) : String := ⟨dropTrail (fun c => c = '/') s.data⟩

/-- Embeds `_build_headers`. -/
def buildHeaders (apiKey : String) : List (String × String) :=
  let k := pyStripS apiKey
  if k = "" then [("Content-Type", "application/json")]
  else [("Content-Type", "application/json"), ("Authorization", "Bearer " ++ k)]

/-- One outbound HTTP request. -/
inductive Req
  | modelsGet (url : String) (headers : List (String × String))
  | chatPost (url : String) (payload : Json) (headers : List (String × String))

/-- The network oracle: what the server would answer. -/
structure Net where
  modelsResp : Option Json
  chatOk : Bool
  chatStatus : Nat
  chatLines : List String
  chatBody : Option Json

/-- The exceptions `run` can raise (message text abstracted). -/
inductive RunError
  | valueError
  | serverError (status : Nat)
  | requestFailed
  | typeError
deriving DecidableEq

/-- `item.get("id") or item.get("name") or item.get("model")` on a parsed
member dict, then the `isinstance(str) and strip()` guard. -/
def midOf (kvs : List (String × Json)) : Option String :=
  match pyOr (pyOr (pyGet kvs "id") (pyGet kvs "name")) (pyGet kvs "model") with
  | Json.str s => if pyStripS s = "" then none else some (pyStripS s)
  | _ => none

/-- The scan over `payload["data"]` items (dict items only). -/
def scanDicts : List Json → Option String
  | [] => none
  | Json.obj kvs :: rest =>
    match midOf kvs with
    | some m => some m
    | none => scanDicts rest
  | _ :: rest => scanDicts rest

/-- The scan over `payload["models"]` items (dict items, then bare
strings). -/
def scanModels : List Json → Option String
  | [] => none
  | Json.obj kvs :: rest =>
    match midOf kvs with
    | some m => some m
    | none => scanModels rest
  | Json.str s :: rest => if pyStripS s = "" then scanModels rest else some (pyStripS s)
  | _ :: rest => scanModels rest

/-- Embeds `_pick_model_from_models_payload`; a non-dict payload raises
inside `_get_first_model_id`'s `try` and yields `None` there. -/
def pickModel : Json → Option String
  | Json.obj kvs =>
    let fromData :=
      match pyGet kvs "data" with
      | Json.arr items => if items.isEmpty then none else scanDicts items
      | _ => none
    (match fromData with
     | some m => some m
     | none =>
       match pyGet kvs "models" with
       | Json.arr items => if items.isEmpty then none else scanModels items
       | _ => none)
  | _ => none

/-- Embeds `_get_first_model_id`'s result on the oracle (non-200, undecodable
and unreachable responses all collapse to `none` through its `except`). -/
def getFirstModelId (net : Net) : Option String := net.modelsResp.bind pickModel

/-- Python `x or y` for `Optional[str] or str`. -/
def pyOrStr (x : Option String) (y : String) : String :=
  match x with
  | some s => if s = "" then y else s
  | none => y

/-- The `stop_mode` dropdown resolution in `run`. -/
def stopValueOf (stop_mode stop_custom : String) : String :=
  if stop_mode = "preset:common_eot" then "<|eot_id|>"
  else if stop_mode = "preset:triple_hash" then "###"
  else if stop_mode = "custom" then pyStripS stop_custom
  else ""

/-- Lower-case hexadecimal digit. -/
def hexDigit (n : Nat) : Char :=
  if n < 10 then Char.ofNat (48 + n) else Char.ofNat (87 + n)

/-- One character of a dumped JSON string under `ensure_ascii=False`:
mandatory escapes only. -/
def escC (c : Char) : List Char :=
  if c = '"' then ['\\', '"']
  else if c = '\\' then ['\\', '\\']
  else if c = '\n' then ['\\', 'n']
  else if c = '\r' then ['\\', 'r']
  else if c = '\t' then ['\\', 't']
  else if c.toNat = 8 then ['\\', 'b']
  else if c.toNat = 12 then ['\\', 'f']
  else if c.toNat < 32 then ['\\', 'u', '0', '0', hexDigit (c.toNat / 16), hexDigit (c.toNat % 16)]
  else [c]

/-- `json.dumps` of a string (`ensure_ascii=False`). -/
def dumpStrL (s : String) : List Char := '"' :: (s.data.map escC).flatten ++ ['"']

mutual

/-- Compact `json.dumps(·, ensure_ascii=False)` with the default
`(", ", ": ")` separators; numbers reproduce their stored lexeme. -/
def dumpC : Json → List Char
  | .null => "null".data
  | .bool true => "true".data
  | .bool false => "false".data
  | .num lex => lex.data
  | .str s => dumpStrL s
  | .arr items => '[' :: dumpCList items ++ [']']
  | .obj kvs => '\x7b' :: dumpCPairs kvs ++ ['\x7d']

def dumpCList : List Json → List Char
  | [] => []
  | [j] => dumpC j
  | j :: rest => dumpC j ++ ',' :: ' ' :: dumpCList rest

def dumpCPairs : List (String × Json) → List Char
  | [] => []
  | [(k, v)] => dumpStrL k ++ ':' :: ' ' :: dumpC v
  | (k, v) :: rest => dumpStrL k ++ ':' :: ' ' :: dumpC v ++ ',' :: ' ' :: dumpCPairs rest

end

/-- Newline plus indentation. -/
def nlInd (n : Nat) : List Char := '\n' :: List.replicate n ' '

mutual

/-- `json.dumps(·, ensure_ascii=False, indent=2)` at an ambient indent. -/
def dumpI : Nat → Json → List Char
  | _, .null => "null".data
  | _, .bool true => "true".data
  | _, .bool false => "false".data
  | _, .num lex => lex.data
  | _, .str s => dumpStrL s
  | _, .arr [] => "[]".data
  | n, .arr (j :: rest) => '[' :: dumpIList (n + 2) (j :: rest) ++ nlInd n ++ [']']
  | _, .obj [] => "\x7b\x7d".data
  | n, .obj (kv :: rest) => '\x7b' :: dumpIPairs (n + 2) (kv :: rest) ++ nlInd n ++ ['\x7d']

def dumpIList : Nat → List Json → List Char
  | _, [] => []
  | n, [j] => nlInd n ++ dumpI n j
  | n, j :: rest => nlInd n ++ dumpI n j ++ ',' :: dumpIList n rest

def dumpIPairs : Nat → List (String × Json) → List Char
  | _, [] => []
  | n, [(k, v)] => nlInd n ++ dumpStrL k ++ ':' :: ' ' :: dumpI n v
  | n, (k, v) :: rest => nlInd n ++ dumpStrL k ++ ':' :: ' ' :: dumpI n v ++ ',' :: dumpIPairs n rest

end

/-- The node's input socket values (the image abstracted to the data URL
its tensor would convert to). -/
structure Params where
  server_url : String
  prompt : String
  system_prompt : String := ""
  image : Option String := none
  api_key : String := ""
  model_mode : String := "auto"
  model_override : String := ""
  stream : Bool := true
  timeout_seconds : Int := 300
  json_mode : Bool := false
  json_schema_hint : String := ""
  max_tokens : Int := 0
  seed : Int := -1
  stop_mode : String := "none"
  stop_custom : String := ""
  text_postprocess : String := "fix_mojibake"

/-- The system prompt after the optional JSON-mode instruction merge. -/
def sysTextOf (p : Params) : String :=
  let sys0 := pyStripS p.system_prompt
  if p.json_mode then
    let hint := pyStripS p.json_schema_hint
    let ji := "Return ONLY valid JSON. No commentary, no markdown, no code fences."
    let ji2 := if hint = "" then ji else ji ++ "\nJSON schema / shape hint:\n" ++ hint
    if sys0 = "" then ji2 else pyStripS (sys0 ++ "\n\n" ++ ji2)
  else sys0

/-- The `messages` array sent to the chat endpoint. -/
def messagesOf (p : Params) (userText : String) : List Json :=
  let sys := sysTextOf p
  let userMsg :=
    match p.image with
    | some du =>
      let base := [Json.obj [("type", Json.str "text"), ("text", Json.str userText)]]
      let uc := if du = "" then base
        else base ++ [Json.obj [("type", Json.str "image_url"),
          ("image_url", Json.obj [("url", Json.str du)])]]
      Json.obj [("role", Json.str "user"), ("content", Json.arr uc)]
    | none => Json.obj [("role", Json.str "user"), ("content", Json.str userText)]
  (if sys = "" then [] else [Json.obj [("role", Json.str "system"), ("content", Json.str sys)]])
    ++ [userMsg]

/-- The request payload, keys in insertion order. -/
def payloadOf (p : Params) (modelUsed userText : String) : Json :=
  Json.obj
    ([("model", Json.str modelUsed), ("messages", Json.arr (messagesOf p userText))]
      ++ (if 0 < p.max_tokens then [("max_tokens", Json.num (toString p.max_tokens))] else [])
      ++ (if 0 ≤ p.seed then [("seed", Json.num (toString p.seed))] else [])
      ++ (let sv := stopValueOf p.stop_mode p.stop_custom
          if sv = "" then [] else [("stop", Json.str sv)])
      ++ (if p.json_mode then
            [("response_format", Json.obj [("type", Json.str "json_object")])]
          else [])
      ++ (if p.stream then [("stream", Json.bool true)] else []))

/-- The streaming `meta` dict as a JSON value. -/
def metaJson (m : StreamMeta) : Json :=
  Json.obj [("done", Json.bool m.done), ("chunks", Json.num (toString m.chunks))]

/-- The dumped `json` output component for an extracted value. -/
def jsonStrOf (p : Params) (answer : String) : String :=
  match (if p.json_mode then extractJsonFromText answer else none) with
  | some j => ⟨dumpI 0 j⟩
  | none => ""

/-- Everything `run` does with the chat response: status checks, stream or
non-stream decoding, and the final five-tuple. -/
def respond (p : Params) (net : Net) (modelUsed : String) :
    Except RunError (String × String × String × String × String) :=
  let tp := p.text_postprocess
  if net.chatOk = false then .error .requestFailed
  else if net.chatStatus ≠ 200 then .error (.serverError net.chatStatus)
  else if p.stream then
    let res := parseStreamAndAccumulate net.chatLines
    let answer := postprocessText (cleanAnswer res.1) tp
    let thinking := postprocessText (pyStripS res.2.1) tp
    let raw := postprocessText ⟨dumpC (Json.obj [("stream_meta", metaJson res.2.2),
      ("content", Json.str res.1), ("reasoning", Json.str res.2.1)])⟩ tp
    .ok (answer, thinking, postprocessText (jsonStrOf p answer) tp, raw, modelUsed)
  else
    match net.chatBody with
    | none => .error .requestFailed
    | some data =>
      let raw := postprocessText ⟨dumpI 0 data⟩ tp
      match data with
      | Json.obj kvs =>
        let choices := pyOr (pyGet kvs "choices") (Json.arr [])
        if jsonTruthy choices = false then .ok ("", "", "", raw, modelUsed)
        else
          match choices with
          | Json.arr (c0 :: _) =>
            let firstKvs := match c0 with | Json.obj fk => fk | _ => []
            (match pyGet firstKvs "message" with
             | Json.obj msgKvs =>
               let ta := splitThinkingAndAnswer (Json.obj msgKvs)
               let answer := postprocessText ta.2 tp
               .ok (answer, postprocessText ta.1 tp,
                 postprocessText (jsonStrOf p answer) tp, raw, modelUsed)
             | _ =>
               let textV := if (firstKvs.reverse.find? (fun q => q.1 == "text")).isSome
                 then pyGet firstKvs "text" else Json.str ""
               let answer := postprocessText (cleanAnswerVal textV) tp
               .ok (answer, "", postprocessText (jsonStrOf p answer) tp, raw, modelUsed))
          | Json.str _ =>
            let answer := postprocessText (cleanAnswerVal (Json.str "")) tp
            .ok (answer, "", postprocessText (jsonStrOf p answer) tp, raw, modelUsed)
          | _ => .error .typeError
      | _ => .error .typeError

/-- Embeds `SimpleLlamaCppClient.run`, returning the result (or the raised
exception) together with the log of outbound requests. -/
def runClient (p : Params) (net : Net) :
    Except RunError (String × String × String × String × String) × List Req :=
  let su := rstripSlash (pyStripS p.server_url)
  if su = "" then (.error .valueError, [])
  else
    let userText := pyStripS p.prompt
    if userText = "" then (.ok ("", "", "", "", ""), [])
    else
      let headers := buildHeaders p.api_key
      let customUsed := if (if p.model_mode = "" then "auto" else p.model_mode) = "custom"
        then pyStripS p.model_override else ""
      let probeReqs := if customUsed = ""
        then [Req.modelsGet (rstripSlash su ++ "/v1/models") headers] else []
      let modelUsed := if customUsed = ""
        then pyOrStr (getFirstModelId net) "local-model" else customUsed
      let reqs := probeReqs ++
        [Req.chatPost (su ++ "/v1/chat/completions") (payloadOf p modelUsed userText) headers]
      (respond p net modelUsed, reqs)

theorem pyOrStr_ne {x : Option String} {y : String} (hy : ¬(y = "")) : ¬(pyOrStr x y = "") := by
  unfold pyOrStr
  rcases x with _ | s
  · exact hy
  · dsimp only
    by_cases hs : s = ""
    · rw [if_pos hs]
      exact hy
    · rw [if_neg hs]
      exact hs

/-- Every successful return of the response-handling phase carries the
previously selected model identifier in the fifth slot. -/
theorem respond_ok_model {p : Params} {net : Net} {m : String}
    {out : String × String × String × String × String}
    (h : respond p net m = .ok out) : out.2.2.2.2 = m := by
  unfold respond at h
  dsimp only at h
  by_cases h1 : net.chatOk = false
  · rw [if_pos h1] at h
    exact absurd h (by simp)
  · rw [if_neg h1] at h
    by_cases h2 : net.chatStatus ≠ 200
    · rw [if_pos h2] at h
      exact absurd h (by simp)
    · rw [if_neg h2] at h
      by_cases h3 : p.stream
      · rw [if_pos h3] at h
        simp only [Except.ok.injEq] at h
        rw [← h]
      · rw [if_neg h3] at h
        rcases hb : net.chatBody with _ | data
        · rw [hb] at h
          exact absurd h (by simp)
        · rw [hb] at h
          dsimp only at h
          rcases data with _ | b | lex | s | items | kvs
          · simp at h
          · simp at h
          · simp at h
          · simp at h
          · simp at h
          · dsimp only at h
            by_cases h4 : jsonTruthy (pyOr (pyGet kvs "choices") (Json.arr [])) = false
            · rw [if_pos h4] at h
              simp only [Except.ok.injEq] at h
              rw [← h]
            · rw [if_neg h4] at h
              rcases hch : pyOr (pyGet kvs "choices") (Json.arr [])
                with _ | b2 | lex2 | s2 | items2 | kvs2 <;> rw [hch] at h
              · simp at h
              · simp at h
              · simp at h
              · dsimp only at h
                simp only [Except.ok.injEq] at h
                rw [← h]
              · rcases items2 with _ | ⟨c0, rest2⟩
                · simp at h
                · dsimp only at h
                  rcases c0 with _ | b3 | lex3 | s3 | items3 | fk <;> dsimp only at h
                  · rcases hmv : pyGet ([] : List (String × Json)) "message"
                      with _ | b4 | lex4 | s4 | items4 | mkv <;> rw [hmv] at h <;>
                      dsimp only at h <;> simp only [Except.ok.injEq] at h <;> rw [← h]
                  · rcases hmv : pyGet ([] : List (String × Json)) "message"
                      with _ | b4 | lex4 | s4 | items4 | mkv <;> rw [hmv] at h <;>
                      dsimp only at h <;> simp only [Except.ok.injEq] at h <;> rw [← h]
                  · rcases hmv : pyGet ([] : List (String × Json)) "message"
                      with _ | b4 | lex4 | s4 | items4 | mkv <;> rw [hmv] at h <;>
                      dsimp only at h <;> simp only [Except.ok.injEq] at h <;> rw [← h]
                  · rcases hmv : pyGet ([] : List (String × Json)) "message"
                      with _ | b4 | lex4 | s4 | items4 | mkv <;> rw [hmv] at h <;>
                      dsimp only at h <;> simp only [Except.ok.injEq] at h <;> rw [← h]
                  · rcases hmv : pyGet ([] : List (String × Json)) "message"
                      with _ | b4 | lex4 | s4 | items4 | mkv <;> rw [hmv] at h <;>
                      dsimp only at h <;> simp only [Except.ok.injEq] at h <;> rw [← h]
                  · rcases hmv : pyGet fk "message"
                      with _ | b4 | lex4 | s4 | items4 | mkv <;> rw [hmv] at h <;>
                      dsimp only at h <;> simp only [Except.ok.injEq] at h <;> rw [← h]
              · simp at h

/-- C9 counterexample: with a blank `server_url` the call raises
`ValueError` before the prompt check — it does not return the five-tuple of
empty strings even though the prompt is empty. -/
theorem run_blank_prompt_counterexample :
    runClient { server_url := " ", prompt := "" } ⟨none, false, 0, [], none⟩ =
      (.error .valueError, []) := by rfl

/-- C9 (amended): provided the trimmed `server_url` is non-blank, a blank
prompt makes `run` return the five-tuple of empty strings without issuing
any outbound request, regardless of all other parameters. -/
theorem run_blank_prompt_amended (p : Params) (net : Net)
    (hsu : ¬(rstripSlash (pyStripS p.server_url) = ""))
    (hp : pyStripS p.prompt = "") :
    runClient p net = (.ok ("", "", "", "", ""), []) := by
  simp only [runClient, if_neg hsu, if_pos hp]

/-- Concrete instance of the amended C9 behaviour. -/
theorem run_blank_prompt_amended_witness :
    runClient { server_url := "http://x", prompt := "  " } ⟨none, false, 0, [], none⟩ =
      (.ok ("", "", "", "", ""), []) :=
  run_blank_prompt_amended _ _ (by decide) (by decide)

/-- C10 counterexample: on a blank prompt the call returns with the model
identifier component equal to the empty string. -/
theorem run_model_id_counterexample :
    runClient { server_url := "http://h", prompt := " " } ⟨none, false, 0, [], none⟩ =
      (.ok ("", "", "", "", ""), []) := by rfl

/-- C10 (amended): on every invocation with a non-blank prompt that returns
normally, the model identifier is the trimmed override in custom mode when
that is non-blank, and otherwise the first usable model id probed from the
models endpoint with the literal `"local-model"` as fallback; it is never
empty. -/
theorem run_model_id_amended {p : Params} {net : Net}
    {out : String × String × String × String × String} {reqs : List Req}
    (h : runClient p net = (.ok out, reqs))
    (hp : ¬(pyStripS p.prompt = "")) :
    out.2.2.2.2 = (if (if p.model_mode = "" then "auto" else p.model_mode) = "custom" ∧
        ¬(pyStripS p.model_override = "")
      then pyStripS p.model_override
      else pyOrStr (getFirstModelId net) "local-model") ∧
    ¬(out.2.2.2.2 = "") := by
  unfold runClient at h
  dsimp only at h
  by_cases hsu : rstripSlash (pyStripS p.server_url) = ""
  · rw [if_pos hsu] at h
    rw [Prod.mk.injEq] at h
    exact absurd h.1 (by simp)
  · rw [if_neg hsu] at h
    rw [if_neg hp] at h
    rw [Prod.mk.injEq] at h
    have h5 := respond_ok_model h.1
    rw [h5]
    by_cases hc : (if p.model_mode = "" then "auto" else p.model_mode) = "custom"
    · by_cases ho : pyStripS p.model_override = ""
      · have hcond : ¬((if p.model_mode = "" then "auto" else p.model_mode) = "custom" ∧
            ¬(pyStripS p.model_override = "")) := by simp [ho]
        simp only [if_pos hc, if_pos ho, if_neg hcond]
        exact ⟨by simp, pyOrStr_ne (by decide)⟩
      · have hcond : (if p.model_mode = "" then "auto" else p.model_mode) = "custom" ∧
            ¬(pyStripS p.model_override = "") := ⟨hc, ho⟩
        simp only [if_pos hc, if_neg ho, if_pos hcond]
        exact ⟨by simp, ho⟩
    · have hcond : ¬((if p.model_mode = "" then "auto" else p.model_mode) = "custom" ∧
          ¬(pyStripS p.model_override = "")) := by simp [hc]
      simp only [if_neg hc, if_neg hcond]
      exact ⟨by simp, pyOrStr_ne (by decide)⟩

/-- Concrete instance of the amended C10 model selection (auto mode, probe
answering `m1`). -/
theorem run_model_id_amended_witness :
    ("m1" : String) = "m1" ∧ ¬(("m1" : String) = "") :=
  @run_model_id_amended
    { server_url := "http://x", prompt := "hi" }
    ⟨some (Json.obj [("data", Json.arr [Json.obj [("id", Json.str "m1")]])]), true, 200, [], none⟩
    ("", "", "",
     "\x7b\"stream_meta\": \x7b\"done\": false, \"chunks\": 0\x7d, \"content\": \"\", \"reasoning\": \"\"\x7d",
     "m1")
    [Req.modelsGet "http://x/v1/models" [("Content-Type", "application/json")],
     Req.chatPost "http://x/v1/chat/completions"
       (Json.obj [("model", Json.str "m1"),
         ("messages", Json.arr [Json.obj [("role", Json.str "user"),
           ("content", Json.str "hi")]]),
         ("stream", Json.bool true)])
       [("Content-Type", "application/json")]]
    (by rfl) (by decide)
